import Mathlib

/-!
Verification of the LaTeX-to-MDX content transformation pipeline
(`latex-formatter-for-katex`).  Python strings are modelled as `List Char`;
each regex-based rewriting pass of the source is embedded as an executable
scanning function mirroring the semantics of the concrete pattern it uses
(leftmost match, non-greedy completion, lookarounds of the specific
patterns).  Where a pass consumes a computed suffix, the function takes an
explicit fuel argument so that it stays structurally recursive; the public
wrapper instantiates the fuel with the input length, which every lemma
shows to be sufficient.
-/

set_option maxRecDepth 4000

namespace TexToMdx

/-- Characters of a Python `str`, modelled as a list of characters. -/
abbrev Str := List Char

/-- ASCII whitespace recognised by Python `str.strip()` and by `\s`. -/
def isPySpace (c : Char) : Bool :=
  c == ' ' || c == '\t' || c == '\n' || c == '\r' || c == '\x0b' || c == '\x0c'

/-- Python `str.strip()`: drop leading and trailing whitespace. -/
def pyStrip (s : Str) : Str :=
  ((s.dropWhile isPySpace).reverse.dropWhile isPySpace).reverse

/-- Whether `pat` occurs as a contiguous substring of the argument
(success of Python `str.find` / a literal regex search). -/
def occursB (pat : Str) : Str → Bool
  | [] => pat.isEmpty
  | c :: cs => pat.isPrefixOf (c :: cs) || occursB pat cs

/-- Leftmost occurrence of `pat`, returned as the split
`s = pre ++ pat ++ post` (Python `str.find`, leftmost literal regex match). -/
def findSplit (pat : Str) : Str → Option (Str × Str)
  | [] => if pat.isEmpty then some ([], []) else none
  | c :: cs =>
    if pat.isPrefixOf (c :: cs) then some ([], (c :: cs).drop pat.length)
    else (findSplit pat cs).map (fun pr => (c :: pr.1, pr.2))

/-- Index of the leftmost occurrence of `pat` (Python `re.search(...).start()`). -/
def firstIdx (pat : Str) : Str → Option Nat
  | [] => if pat.isEmpty then some 0 else none
  | c :: cs =>
    if pat.isPrefixOf (c :: cs) then some 0 else (firstIdx pat cs).map (· + 1)

/-- Fuelled worker for `replaceAll`. -/
def replaceAllF (pat rep : Str) : Nat → Str → Str
  | 0, s => s
  | _ + 1, [] => []
  | fuel + 1, c :: cs =>
    if pat ≠ [] ∧ pat.isPrefixOf (c :: cs) then
      rep ++ replaceAllF pat rep fuel ((c :: cs).drop pat.length)
    else
      c :: replaceAllF pat rep fuel cs

/-- Python `str.replace(pat, rep)`: replace all non-overlapping occurrences,
scanning left to right. -/
def replaceAll (pat rep s : Str) : Str := replaceAllF pat rep s.length s

/-- One decimal digit. -/
def digitChar : Nat → Char
  | 0 => '0' | 1 => '1' | 2 => '2' | 3 => '3' | 4 => '4'
  | 5 => '5' | 6 => '6' | 7 => '7' | 8 => '8' | _ => '9'

/-- Fuelled worker for `toDec`. -/
def toDecF : Nat → Nat → Str
  | 0, _ => []
  | fuel + 1, n =>
    if n < 10 then [digitChar n]
    else toDecF fuel (n / 10) ++ [digitChar (n % 10)]

/-- Decimal digits of `n`, as produced by Python `str(n)` inside an f-string. -/
def toDec (n : Nat) : Str := toDecF (n + 1) n

/-- Numeric value of a digit string (used only to invert `toDec`). -/
def fromDec (s : Str) : Nat := s.foldl (fun a c => 10 * a + (c.toNat - 48)) 0

/-! ## MathConverter (`src/math_converter.py`)

`protect_existing_math` applies two global substitutions:
first `already_display_pattern = (?<!\\)\$\$(.*?)(\\\\)?\$\$` (DOTALL),
then `already_inline_pattern = (?<!\\)\$(?!\$)(.*?)(?<!\\)\$(?!\$)` (DOTALL);
each match is replaced by `__PROTECTED_MATH_{i}__` and the matched span is
appended to a shared list. -/

/-- Stem of the placeholder token. -/
def phStem : Str := "__PROTECTED_MATH_".toList

/-- The placeholder `__PROTECTED_MATH_{i}__`. -/
def placeholder (i : Nat) : Str := phStem ++ toDec i ++ ['_', '_']

/-- Completion of a display match after its opening `$$`: the regex tail
`(.*?)(\\\\)?\$\$`, non-greedy, so the earliest position closing the match
wins, and at each position the optional `(\\\\)?` group is tried first.
Returns `(group1, group2, rest)`. -/
def displayClose : Str → Option (Str × Str × Str)
  | [] => none
  | c :: cs =>
    if ['\\', '\\', '$', '$'].isPrefixOf (c :: cs) then
      some ([], ['\\', '\\'], cs.drop 3)
    else if ['$', '$'].isPrefixOf (c :: cs) then
      some ([], [], cs.drop 1)
    else
      (displayClose cs).map (fun p => (c :: p.1, p.2.1, p.2.2))

/-- Completion of an inline match after its opening `$`: the regex tail
`(.*?)(?<!\\)\$(?!\$)`, non-greedy.  `prev` is the character just before the
current position (for the `(?<!\\)` lookbehind).  Returns `(group1, rest)`. -/
def inlineClose (prev : Char) : Str → Option (Str × Str)
  | [] => none
  | c :: cs =>
    if c = '$' ∧ prev ≠ '\\' ∧ cs.head? ≠ some '$' then some ([], cs)
    else (inlineClose c cs).map (fun p => (c :: p.1, p.2))

/-- Whether a display match can open here: current char and the next are `$`
and the previous character is not a backslash (`(?<!\\)\$\$`). -/
def dOpens (prev : Option Char) (c : Char) (cs : Str) : Prop :=
  c = '$' ∧ cs.head? = some '$' ∧ prev ≠ some '\\'

instance (prev : Option Char) (c : Char) (cs : Str) : Decidable (dOpens prev c cs) := by
  unfold dOpens; infer_instance

/-- Fuelled scan of `already_display_pattern.sub(protect_display, content)`:
at each position, if a display match starts and completes, it is replaced by
the next placeholder and the span `$$ + g1 + g2 + $$` is recorded; otherwise
the scan advances one character.  `prev` is the previous character of the
original string. -/
def dPassF : Nat → Option Char → Nat → Str → Str × List Str
  | 0, _, _, s => (s, [])
  | _ + 1, _, _, [] => ([], [])
  | fuel + 1, prev, k, c :: cs =>
    if dOpens prev c cs then
      match displayClose cs.tail with
      | some (g1, g2, rest) =>
        let block := '$' :: '$' :: (g1 ++ g2 ++ ['$', '$'])
        let out := dPassF fuel (some '$') (k + 1) rest
        (placeholder k ++ out.1, block :: out.2)
      | none =>
        let out := dPassF fuel (some c) k cs
        (c :: out.1, out.2)
    else
      let out := dPassF fuel (some c) k cs
      (c :: out.1, out.2)

/-- Whether an inline match can open here (`(?<!\\)\$(?!\$)`). -/
def iOpens (prev : Option Char) (c : Char) (cs : Str) : Prop :=
  c = '$' ∧ prev ≠ some '\\' ∧ cs.head? ≠ some '$'

instance (prev : Option Char) (c : Char) (cs : Str) : Decidable (iOpens prev c cs) := by
  unfold iOpens; infer_instance

/-- Fuelled scan of `already_inline_pattern.sub(protect_inline, content)`. -/
def iPassF : Nat → Option Char → Nat → Str → Str × List Str
  | 0, _, _, s => (s, [])
  | _ + 1, _, _, [] => ([], [])
  | fuel + 1, prev, k, c :: cs =>
    if iOpens prev c cs then
      match inlineClose '$' cs with
      | some (g1, rest) =>
        let block := '$' :: (g1 ++ ['$'])
        let out := iPassF fuel (some '$') (k + 1) rest
        (placeholder k ++ out.1, block :: out.2)
      | none =>
        let out := iPassF fuel (some c) k cs
        (c :: out.1, out.2)
    else
      let out := iPassF fuel (some c) k cs
      (c :: out.1, out.2)

/-- `MathConverter.protect_existing_math`: protect display math first, then
inline math, recording the removed spans (delimiters included) in order in a
single shared list. -/
def protect_existing_math (content : Str) : Str × List Str :=
  let d := dPassF content.length none 0 content
  let i := iPassF d.1.length none d.2.length d.1
  (i.1, d.2 ++ i.2)

/-- `MathConverter.restore_protected_math`: for each index in order, replace
every occurrence of `__PROTECTED_MATH_{i}__` by `blocks[i]`. -/
def restoreFrom (i : Nat) : List Str → Str → Str
  | [], s => s
  | b :: bs, s => restoreFrom (i + 1) bs (replaceAll (placeholder i) b s)

/-- Restore entry point (loop of `restore_protected_math`). -/
def restore_protected_math (content : Str) (blocks : List Str) : Str :=
  restoreFrom 0 blocks content

/-- Whether the text contains no unescaped `$` (every `$` is preceded by a
backslash); `prev` tracks the previous character. -/
def noUnescapedDollar : Option Char → Str → Bool
  | _, [] => true
  | prev, c :: cs =>
    (c != '$' || prev == some '\\') && noUnescapedDollar (some c) cs

/-! ## TexToMdxParser.remove_preamble (`src/parser.py` lines 258-266) -/

/-- The literal `\begin{document}` searched by `remove_preamble`. -/
def beginDocTok : Str := "\\begin{document}".toList

/-- The literal `\end{document}` searched by `remove_preamble`. -/
def endDocTok : Str := "\\end{document}".toList

/-- Python slice `s[a:b]` for `0 ≤ a, b` (empty when `b ≤ a`). -/
def pySlice (s : Str) (a b : Nat) : Str := (s.drop a).take (b - a)

/-- `TexToMdxParser.remove_preamble`: when both document markers are found,
keep the text strictly between them; then `content.strip()` in either case. -/
def remove_preamble (content : Str) : Str :=
  match firstIdx beginDocTok content, firstIdx endDocTok content with
  | some i, some j => pyStrip (pySlice content (i + beginDocTok.length) j)
  | _, _ => pyStrip content

/-! ## StructureConverter.convert_tabular_to_array (`src/structure_converter.py` lines 190-221) -/

/-- The literal `\begin{tabular}`. -/
def beginTabTok : Str := "\\begin{tabular}".toList

/-- The literal `\end{tabular}`. -/
def endTabTok : Str := "\\end{tabular}".toList

/-- The literal `\begin{center}`. -/
def beginCenterTok : Str := "\\begin{center}".toList

/-- The literal `\end{center}`. -/
def endCenterTok : Str := "\\end{center}".toList

/-- `re.sub(r'\$', '', table_content)`: every `$` is removed. -/
def stripDollars (s : Str) : Str := s.filter (fun c => c ≠ '$')

/-- `re.sub(r'\\[\(\)]', '', table_content)`: remove the two-character
sequences `\(` and `\)`, scanning left to right, non-overlapping. -/
def stripMathParens : Str → Str
  | [] => []
  | [c] => [c]
  | c :: d :: cs =>
    if c = '\\' ∧ (d = '(' ∨ d = ')') then stripMathParens cs
    else c :: stripMathParens (d :: cs)

/-- The replacement built by `handle_tabular`: the whole table becomes one
display-math `array` block; `spec` is the column-spec group kept verbatim
(braces included) and the body has `$` and `\( \)` delimiters removed. -/
def arrayBlock (spec body : Str) : Str :=
  "\n$$\n\\begin{array}".toList ++ spec ++ stripMathParens (stripDollars body) ++
    "\\end{array}\n$$\n".toList

/-- The column-spec group `(\{[^}]*\})` right after `\begin{tabular}`:
a brace group whose interior has no `}`.  Returns the group (braces
included) and the remaining text. -/
def parseColumnSpec : Str → Option (Str × Str)
  | '\x7b' :: r =>
    (findSplit ['\x7d'] r).map (fun pr => ('\x7b' :: pr.1 ++ ['\x7d'], pr.2))
  | _ => none

/-- Fuelled scan of `tabular_pattern.sub(handle_tabular, content)` for the
standalone-`tabular` pattern `\begin{tabular}(\{[^}]*\})(.*?)\end{tabular}`:
a candidate without a column spec or without a closing marker is no match,
and the scan then continues past the literal `\begin{tabular}`. -/
def tabularSubF : Nat → Str → Str
  | 0, s => s
  | fuel + 1, s =>
    match findSplit beginTabTok s with
    | none => s
    | some (pre, rest) =>
      match parseColumnSpec rest with
      | none => pre ++ beginTabTok ++ tabularSubF fuel rest
      | some (spec, rest2) =>
        match findSplit endTabTok rest2 with
        | none => pre ++ beginTabTok ++ tabularSubF fuel rest
        | some (body, rest3) => pre ++ arrayBlock spec body ++ tabularSubF fuel rest3

/-- Match of `\end{tabular}\s*\end{center}` at the current position
(the `\s*` is effectively possessive here: fewer spaces cannot start
`\end`). -/
def centerEndHere (s : Str) : Option Str :=
  if endTabTok.isPrefixOf s then
    let r := (s.drop endTabTok.length).dropWhile isPySpace
    if endCenterTok.isPrefixOf r then some (r.drop endCenterTok.length) else none
  else none

/-- Earliest end of the non-greedy `(.*?)` group of the center+tabular
pattern: split at the first position where `\end{tabular}\s*\end{center}`
matches. -/
def findCompoundEnd : Str → Option (Str × Str)
  | [] => none
  | c :: cs =>
    match centerEndHere (c :: cs) with
    | some rest => some ([], rest)
    | none => (findCompoundEnd cs).map (fun p => (c :: p.1, p.2))

/-- Tail of the center+tabular pattern after `\begin{center}`:
`\s*\begin{tabular}(\{[^}]*\})(.*?)\end{tabular}\s*\end{center}`. -/
def parseCenterTail (rest : Str) : Option (Str × Str × Str) :=
  let r1 := rest.dropWhile isPySpace
  if beginTabTok.isPrefixOf r1 then
    match parseColumnSpec (r1.drop beginTabTok.length) with
    | some (spec, r3) =>
      match findCompoundEnd r3 with
      | some (body, rest2) => some (spec, body, rest2)
      | none => none
    | none => none
  else none

/-- Fuelled scan of `center_tabular_pattern.sub(handle_tabular, content)`. -/
def centerTabSubF : Nat → Str → Str
  | 0, s => s
  | fuel + 1, s =>
    match findSplit beginCenterTok s with
    | none => s
    | some (pre, rest) =>
      match parseCenterTail rest with
      | none => pre ++ beginCenterTok ++ centerTabSubF fuel rest
      | some (spec, body, rest2) => pre ++ arrayBlock spec body ++ centerTabSubF fuel rest2

/-- `StructureConverter.convert_tabular_to_array`: first the
center-wrapped-tabular substitution, then the standalone-tabular one. -/
def convert_tabular_to_array (content : Str) : Str :=
  let s1 := centerTabSubF content.length content
  tabularSubF s1.length s1

/-! ## TexToMdxParser.parse and the box-normalization call (`src/parser.py` lines 18-71)

`parse` invokes `self.box_converter.convert(content, content_processor=process_box_content)`
(line 57), but `BoxConverter.convert` is declared as
`def convert(self, content: str, max_depth: int = 10)` (box_converter.py line
74).  Python call binding rejects a keyword argument that names no formal
parameter of a function without `**kwargs`, raising `TypeError` before the
callee body runs. -/

/-- Python-level error raised by a failed call binding. -/
inductive PyError
  | typeError
deriving DecidableEq

/-- Formal parameters of `BoxConverter.convert` (box_converter.py line 74). -/
def boxConvertParams : List String := ["self", "content", "max_depth"]

/-- Keyword arguments of the call at parser.py line 57. -/
def parseBoxCallKeywords : List String := ["content_processor"]

/-- Python keyword binding for a signature without `**kwargs`: every keyword
argument must name a formal parameter. -/
def pyKeywordsBind (params kwargs : List String) : Bool :=
  kwargs.all params.contains

/-- `TexToMdxParser.parse` up to and including the box-normalization call.
`cleanups` stands for the total rewriting steps 2.5-3.4 (minipage /
lstlisting / vspace / equation-command removal), `tikzStep` for the graphics
collaborator's `convert_content` (assumed constructed, per-graphic failures
caught inside it), and `restPipeline` for the passes after box conversion;
all three are total string functions, so the only possible exception up to
this point is the `TypeError` of the box call itself. -/
def parseModel (cleanups tikzStep restPipeline : Str → Str) (latex : Str) :
    Except PyError Str :=
  let c := remove_preamble latex
  let c := cleanups c
  let c := convert_tabular_to_array c
  let c := tikzStep c
  if pyKeywordsBind boxConvertParams parseBoxCallKeywords then .ok (restPipeline c)
  else .error .typeError

/-! ## BoxConverter (`src/box_converter.py`)

`box_start_pattern = \\begin\{(\w+_box)\}\{`; titles are extracted by the
depth-counting scanner `extract_title_with_nested_braces`; the closing
marker `\end{name}` is found by plain `str.find`; box bodies are converted
recursively (depth-bounded) before substitution, and a whole extra pass is
run while converted output still contains a box marker. -/

/-- `\w` of the pattern (ASCII letters, digits and underscore). -/
def isWordChar (c : Char) : Bool := c.isAlphanum || c == '_'

/-- The literal `\begin{` opening the box pattern. -/
def beginTok : Str := "\\begin\x7b".toList

/-- Name accepted by the group `(\w+_box)` followed by `}`: a maximal word
run that ends in `_box` with at least one extra leading character. -/
def boxNameOK (name : Str) : Bool :=
  name.all isWordChar && decide (5 ≤ name.length) && "_box".toList.isSuffixOf name

/-- Attempt of `box_start_pattern` at the current position.  Returns the
captured name and the text after the `{` that opens the title. -/
def tryMarker (s : Str) : Option (Str × Str) :=
  if beginTok.isPrefixOf s then
    let rest := s.drop beginTok.length
    let run := rest.takeWhile isWordChar
    let after := rest.dropWhile isWordChar
    if boxNameOK run && "\x7d\x7b".toList.isPrefixOf after then
      some (run, after.drop 2)
    else none
  else none

/-- `box_start_pattern.search`: leftmost position where `tryMarker`
succeeds, returned as `(text before the match, name, text after the
opening brace of the title)`. -/
def findBoxStart : Str → Option (Str × Str × Str)
  | [] => none
  | c :: cs =>
    match tryMarker (c :: cs) with
    | some (name, rest) => some ([], name, rest)
    | none => (findBoxStart cs).map (fun p => (c :: p.1, p.2.1, p.2.2))

/-- `extract_title_with_nested_braces`: depth-counting scan (entry depth 1);
an escape (backslash plus any following character) is copied atomically; the
scan stops just past the brace that returns the depth to 0, or at the end of
the text. -/
def extractTitle : Nat → Str → Str × Str
  | _, [] => ([], [])
  | depth, [c] =>
    if c = '\x7b' then (['\x7b'], [])
    else if c = '\x7d' then (if depth = 1 then ([], []) else (['\x7d'], []))
    else ([c], [])
  | depth, c :: d :: cs =>
    if c = '\\' then
      let p := extractTitle depth cs
      (c :: d :: p.1, p.2)
    else if c = '\x7b' then
      let p := extractTitle (depth + 1) (d :: cs)
      (c :: p.1, p.2)
    else if c = '\x7d' then
      if depth = 1 then ([], d :: cs)
      else
        let p := extractTitle (depth - 1) (d :: cs)
        (c :: p.1, p.2)
    else
      let p := extractTitle depth (d :: cs)
      (c :: p.1, p.2)

/-- The end pattern `f'\end{{{box_type}}}'`. -/
def endTag (name : Str) : Str := "\\end\x7b".toList ++ name ++ ['\x7d']

/-- The full opening marker `\begin{name}{` (i.e. `match.group(0)`). -/
def beginMarker (name : Str) : Str := beginTok ++ name ++ "\x7d\x7b".toList

/-- The `box_types` lookup with default `Box`. -/
def tagOf (name : Str) : Str :=
  if name = "dem_box".toList then "DemBox".toList
  else if name = "ejem_box".toList then "EjemBox".toList
  else if name = "ej_box".toList then "EjBox".toList
  else "Box".toList

/-- The one-character pattern `"` used by the title escaping. -/
def quoteTok : Str := ['"']

/-- `title.replace('"', '&quot;')`. -/
def escQuotes (title : Str) : Str := replaceAll quoteTok "&quot;".toList title

/-- The tagged container
`f"<{t} title=\"{title}\">\n\n{content}\n\n</{t}>"`. -/
def boxTag (name title conv : Str) : Str :=
  '<' :: tagOf name ++ " title=\"".toList ++ escQuotes title ++ "\">\n\n".toList ++
    conv ++ "\n\n</".toList ++ tagOf name ++ ['>']

/-- Fuelled scan of one while-loop execution of `BoxConverter.convert`:
`rec` converts a box body at the next depth.  An opening marker without a
matching end keeps `match.group(0)` in the output and the scan resumes just
past it; a complete box is emitted as its tag with the stripped body
converted recursively. -/
def boxPassF (rec : Str → Str) : Nat → Str → Str × Bool
  | 0, s => (s, false)
  | fuel + 1, s =>
    match findBoxStart s with
    | none => (s, false)
    | some (pre, name, rest) =>
      let t := extractTitle 1 rest
      match findSplit (endTag name) t.2 with
      | none =>
        let out := boxPassF rec fuel rest
        (pre ++ beginMarker name ++ out.1, out.2)
      | some (body, afterEnd) =>
        let conv := boxTag name t.1 (rec (pyStrip body))
        let out := boxPassF rec fuel afterEnd
        (pre ++ conv ++ out.1, true)

/-- `BoxConverter.convert(content, max_depth)`: a non-positive depth returns
the text unchanged; otherwise one full pass runs, and if it converted
something and box markers remain, the whole pass is re-run at depth − 1. -/
def boxConvert : Nat → Str → Str
  | 0, s => s
  | d + 1, s =>
    let out := boxPassF (boxConvert d) s.length s
    if out.2 && (findBoxStart out.1).isSome then boxConvert d out.1 else out.1

/-- Characters allowed in a title for which the brace scanner is trivial. -/
def titleOK (t : Str) : Bool :=
  t.all (fun c => !(c == '\\' || c == '\x7b' || c == '\x7d'))

/-! ## StructureConverter.convert_lists (`src/structure_converter.py` lines 102-174)

Item extraction mirrors
`re.findall(r'\\item(?:\[([^\]]*)\])?\s*(.+?)(?=\\item(?:\[[^\]]*\])?|$)', items_text, re.DOTALL)`:
matches start at `\item` literals; the optional label is the bracket group up
to the first `]`; `\s*` is greedy but gives one character back when `.+?`
would otherwise be empty; the non-greedy text stops at the first position
where `\item` follows or at the end (Python `$` also matches just before a
final newline). -/

/-- The literal `\begin{itemize}`. -/
def beginItemizeTok : Str := "\\begin{itemize}".toList

/-- The literal `\end{itemize}`. -/
def endItemizeTok : Str := "\\end{itemize}".toList

/-- The literal `\begin{enumerate}`. -/
def beginEnumTok : Str := "\\begin{enumerate}".toList

/-- The literal `\end{enumerate}`. -/
def endEnumTok : Str := "\\end{enumerate}".toList

/-- The literal `\item`. -/
def itemTok : Str := "\\item".toList

/-- The optional label group `(?:\[([^\]]*)\])?` right after `\item`;
an unmatched group captures the empty string, like Python's `findall`. -/
def parseLabel (s : Str) : Str × Str :=
  match s with
  | [] => ([], [])
  | c :: r =>
    if c = '[' then
      match findSplit [']'] r with
      | some (lab, r2) => (lab, r2)
      | none => ([], c :: r)
    else ([], c :: r)

/-- Continuation of the non-greedy `(.+?)` after its first character: stop
where the lookahead `(?=\\item(?:...)?|$)` holds — before a `\item`, at the
end, or just before a final newline. -/
def takeTextAux : Str → Str × Str
  | [] => ([], [])
  | [c] => if c = '\n' then ([], ['\n']) else ([c], [])
  | c :: d :: cs =>
    if itemTok.isPrefixOf (c :: d :: cs) then ([], c :: d :: cs)
    else
      let p := takeTextAux (d :: cs)
      (c :: p.1, p.2)

/-- The non-greedy `(.+?)` with its mandatory first character. -/
def takeText : Str → Str × Str
  | [] => ([], [])
  | c :: cs =>
    let p := takeTextAux cs
    (c :: p.1, p.2)

/-- `\s*(.+?)(?=...)`: greedy whitespace, then at least one text character;
when everything is whitespace, `\s*` backtracks one character so `.+?` can
take the last one; with nothing left the whole item match fails. -/
def parseItemText (s : Str) : Option (Str × Str) :=
  let r := s.dropWhile isPySpace
  if r.isEmpty then
    match s.getLast? with
    | some c => some ([c], [])
    | none => none
  else some (takeText r)

/-- Fuelled `findall` of the item pattern: one entry `(label, text)` per
match, scanning resumes where the text lookahead stopped. -/
def findItemsF : Nat → Str → List (Str × Str)
  | 0, _ => []
  | fuel + 1, s =>
    match findSplit itemTok s with
    | none => []
    | some (_, rest) =>
      let lb := parseLabel rest
      match parseItemText lb.2 with
      | none => []
      | some (txt, rest3) => (lb.1, txt) :: findItemsF fuel rest3

/-- The item loop of `convert_itemize`: empty texts are dropped, a labelled
item becomes a bold-labelled bullet, the rest plain bullets. -/
def renderItemizeItems : List (Str × Str) → List Str
  | [] => []
  | (lab, txt) :: rest =>
    let t := pyStrip txt
    if t.isEmpty then renderItemizeItems rest
    else if !lab.isEmpty then
      ("- **".toList ++ lab ++ "** ".toList ++ t) :: renderItemizeItems rest
    else ("- ".toList ++ t) :: renderItemizeItems rest

/-- The item loop of `convert_enumerate`: empty texts are dropped, a
labelled item becomes a bold-labelled bullet, and only unlabelled items
advance the ordinal counter. -/
def renderEnumItems : Nat → List (Str × Str) → List Str
  | _, [] => []
  | counter, (lab, txt) :: rest =>
    let t := pyStrip txt
    if t.isEmpty then renderEnumItems counter rest
    else if !lab.isEmpty then
      ("- **".toList ++ lab ++ "** ".toList ++ t) :: renderEnumItems counter rest
    else (toDec counter ++ ". ".toList ++ t) :: renderEnumItems (counter + 1) rest

/-- `'\n'.join(result)`. -/
def joinNL : List Str → Str
  | [] => []
  | [l] => l
  | l :: ls => l ++ '\n' :: joinNL ls

/-- `'\n' + '\n'.join(result) + '\n' if result else ''`. -/
def wrapItems (lines : List Str) : Str :=
  if lines.isEmpty then [] else '\n' :: (joinNL lines ++ ['\n'])

/-- Replacement of one `itemize` environment body. -/
def convert_itemize_body (body : Str) : Str :=
  wrapItems (renderItemizeItems (findItemsF body.length body))

/-- Replacement of one `enumerate` environment body. -/
def convert_enumerate_body (body : Str) : Str :=
  wrapItems (renderEnumItems 1 (findItemsF body.length body))

/-- Fuelled scan of `pattern.sub(repl, content)` for the non-greedy
environment patterns `\begin{env}(.*?)\end{env}` (DOTALL): leftmost begin,
shortest completion to the first end after it. -/
def envSubF (bTok eTok : Str) (render : Str → Str) : Nat → Str → Str
  | 0, s => s
  | fuel + 1, s =>
    match findSplit bTok s with
    | none => s
    | some (pre, rest) =>
      match findSplit eTok rest with
      | none => s
      | some (body, rest2) => pre ++ render body ++ envSubF bTok eTok render fuel rest2

/-- `itemize_pattern.sub(convert_itemize, content)`. -/
def itemizeSub (s : Str) : Str :=
  envSubF beginItemizeTok endItemizeTok convert_itemize_body s.length s

/-- `enumerate_pattern.sub(convert_enumerate, content)`. -/
def enumSub (s : Str) : Str :=
  envSubF beginEnumTok endEnumTok convert_enumerate_body s.length s

/-- One iteration of the `convert_lists` while-loop: the itemize
substitution, then the enumerate substitution. -/
def listsPassOnce (s : Str) : Str := enumSub (itemizeSub s)

/-- The bounded while-loop of `convert_lists` (`max_iterations = 10`):
stop as soon as a pass leaves the content unchanged. -/
def listsLoop : Nat → Str → Str
  | 0, s => s
  | i + 1, s =>
    let s2 := listsPassOnce s
    if s2 = s then s else listsLoop i s2

/-- Number of passes the loop actually runs (the unchanged final pass
included), for the iteration bound. -/
def listsLoopCount : Nat → Str → Nat
  | 0, _ => 0
  | i + 1, s =>
    let s2 := listsPassOnce s
    if s2 = s then 1 else 1 + listsLoopCount i s2

/-- The four leftover-tag removals after the loop, in source order. -/
def cleanupListTags (s : Str) : Str :=
  replaceAll beginEnumTok []
    (replaceAll beginItemizeTok [] (replaceAll endEnumTok [] (replaceAll endItemizeTok [] s)))

/-- `StructureConverter.convert_lists`. -/
def convert_lists (s : Str) : Str := cleanupListTags (listsLoop 10 s)

/-- Texts for which the item scanner is transparent: nonempty, free of
`\item`, not whitespace-led, and strip-invariant (with and without a
trailing newline). -/
def textOK (t : Str) : Bool :=
  !t.isEmpty && !occursB itemTok t && !isPySpace t.headI &&
    (pyStrip (t ++ ['\n']) == t) && (pyStrip t == t)

/-! ## Well-formed math piece lists for the protect/restore analysis -/

/-- A document piece: plain text, a display span `$$b$$`, or an inline
span `$b$` (the stored strings are the span interiors). -/
inductive MPiece where
  | txt : Str → MPiece
  | disp : Str → MPiece
  | inl : Str → MPiece
deriving DecidableEq

/-- The literal text of a piece. -/
def pieceFlat : MPiece → Str
  | .txt t => t
  | .disp b => '$' :: '$' :: (b ++ ['$', '$'])
  | .inl b => '$' :: (b ++ ['$'])

/-- Concatenation of a piece list. -/
def flatPieces : List MPiece → Str
  | [] => []
  | p :: ps => pieceFlat p ++ flatPieces ps

/-- Local side conditions: text and inline interiors are nonempty, free of
`$`, and do not end in a backslash; display interiors are free of `$`. -/
def pieceOK : MPiece → Bool
  | .txt t => !t.isEmpty && t.all (fun c => c != '$') && t.getLast? != some '\\'
  | .disp b => b.all (fun c => c != '$')
  | .inl b => !b.isEmpty && b.all (fun c => c != '$') && b.getLast? != some '\\'

/-- Adjacency conditions: an inline span is followed by text or the end
(the closing lookahead `(?!\$)`), and two text pieces are never adjacent. -/
def adjOK : MPiece → Option MPiece → Bool
  | .inl _, some (.txt _) => true
  | .inl _, none => true
  | .inl _, _ => false
  | .txt _, some (.txt _) => false
  | _, _ => true

/-- Well-formed piece list. -/
def wfPieces : List MPiece → Bool
  | [] => true
  | p :: ps => pieceOK p && adjOK p ps.head? && wfPieces ps

/-- The marker kernel of every placeholder. -/
def pmTok : Str := "PROTECTED_MATH_".toList

/-- Guarded text after the display pass: the `k`-th display span (in order
of appearance, starting from `k`) is replaced by its placeholder. -/
def dGuard (k : Nat) : List MPiece → Str
  | [] => []
  | .txt t :: ps => t ++ dGuard k ps
  | .disp _ :: ps => placeholder k ++ dGuard (k + 1) ps
  | .inl b :: ps => '$' :: (b ++ ('$' :: dGuard k ps))

/-- The display spans recorded by the display pass, in order. -/
def dBlocks : List MPiece → List Str
  | [] => []
  | .txt _ :: ps => dBlocks ps
  | .disp b :: ps => ('$' :: '$' :: (b ++ ['$', '$'])) :: dBlocks ps
  | .inl _ :: ps => dBlocks ps

/-- Guarded text after both passes: displays numbered from `k`, inlines
from `j`. -/
def fullGuard (k j : Nat) : List MPiece → Str
  | [] => []
  | .txt t :: ps => t ++ fullGuard k j ps
  | .disp _ :: ps => placeholder k ++ fullGuard (k + 1) j ps
  | .inl _ :: ps => placeholder j ++ fullGuard k (j + 1) ps

/-- The inline spans recorded by the inline pass, in order. -/
def iBlocks : List MPiece → List Str
  | [] => []
  | .txt _ :: ps => iBlocks ps
  | .disp _ :: ps => iBlocks ps
  | .inl b :: ps => ('$' :: (b ++ ['$'])) :: iBlocks ps

/-- The character just before the scan position after walking `t`. -/
def prevAfter (p : Option Char) (t : Str) : Option Char :=
  match t.getLast? with
  | some c => some c
  | none => p

/-- A restore-state segment: plain text, a restored display span, a
restored inline span, or a still-protected placeholder. -/
inductive Seg where
  | txt : Str → Seg
  | dmath : Str → Seg
  | imath : Str → Seg
  | ph : Nat → Seg
deriving DecidableEq

/-- The literal text of a segment. -/
def segFlat : Seg → Str
  | .txt t => t
  | .dmath b => '$' :: '$' :: (b ++ ['$', '$'])
  | .imath b => '$' :: (b ++ ['$'])
  | .ph x => placeholder x

/-- Concatenation of a segment list. -/
def segsFlat : List Seg → Str
  | [] => []
  | σ :: S => segFlat σ ++ segsFlat S

/-- Local segment conditions for the occurrence analysis: text and span
interiors never mention the placeholder marker. -/
def segWF : Seg → Bool
  | .txt t => !occursB pmTok t
  | .dmath b => !occursB pmTok b
  | .imath b => !occursB pmTok b
  | .ph _ => true

/-- No two adjacent text segments. -/
def segAdj : Seg → Option Seg → Bool
  | .txt _, some (.txt _) => false
  | _, _ => true

/-- Well-formed segment list. -/
def segsWF : List Seg → Bool
  | [] => true
  | σ :: S => segWF σ && segAdj σ S.head? && segsWF S

/-- Number of display pieces. -/
def dispCount : List MPiece → Nat
  | [] => 0
  | .disp _ :: ps => dispCount ps + 1
  | _ :: ps => dispCount ps

/-- Number of inline pieces. -/
def inlCount : List MPiece → Nat
  | [] => 0
  | .inl _ :: ps => inlCount ps + 1
  | _ :: ps => inlCount ps

/-- The segment list after the first `i` restore steps: display pieces are
numbered from `dk`, inline pieces from `ik`, and a piece whose index is
below `i` has been restored to its original span. -/
def stepSegs (i : Nat) : Nat → Nat → List MPiece → List Seg
  | _, _, [] => []
  | dk, ik, .txt t :: ps => Seg.txt t :: stepSegs i dk ik ps
  | dk, ik, .disp b :: ps =>
    (if dk < i then Seg.dmath b else Seg.ph dk) :: stepSegs i (dk + 1) ik ps
  | dk, ik, .inl b :: ps =>
    (if ik < i then Seg.imath b else Seg.ph ik) :: stepSegs i dk (ik + 1) ps

theorem toDecF_mono (fuel₁ fuel₂ n : Nat) (h₁ : n < fuel₁) (h₂ : n < fuel₂) :
    toDecF fuel₁ n = toDecF fuel₂ n := by
  induction fuel₁ generalizing n fuel₂ with
  | zero => omega
  | succ f ih =>
    cases fuel₂ with
    | zero => omega
    | succ f₂ =>
      simp only [toDecF]
      by_cases h : n < 10
      · simp [h]
      · simp only [if_neg h]
        rw [ih f₂ (n / 10) (by omega) (by omega)]

theorem digitVal_digitChar (n : Nat) (h : n < 10) : (digitChar n).toNat - 48 = n := by
  interval_cases n <;> decide

theorem fromDec_toDecF (fuel n : Nat) (h : n < fuel) : fromDec (toDecF fuel n) = n := by
  induction fuel generalizing n with
  | zero => omega
  | succ f ih =>
    simp only [toDecF]
    by_cases h10 : n < 10
    · simp only [if_pos h10, fromDec, List.foldl]
      have := digitVal_digitChar n h10
      omega
    · simp only [if_neg h10, fromDec, List.foldl_append, List.foldl]
      have hrec := ih (n / 10) (by omega)
      simp only [fromDec] at hrec
      rw [hrec]
      have := digitVal_digitChar (n % 10) (by omega)
      omega

theorem fromDec_toDec (n : Nat) : fromDec (toDec n) = n :=
  fromDec_toDecF (n + 1) n (Nat.lt_succ_self n)

theorem toDec_injective : Function.Injective toDec := by
  intro a b h
  have := fromDec_toDec a
  rw [h, fromDec_toDec] at this
  omega

theorem toDecF_digit (fuel n : Nat) (h : n < fuel) :
    ∀ c ∈ toDecF fuel n, 48 ≤ c.toNat ∧ c.toNat ≤ 57 := by
  induction fuel generalizing n with
  | zero => omega
  | succ f ih =>
    simp only [toDecF]
    by_cases h10 : n < 10
    · simp only [if_pos h10]
      intro c hc
      simp only [List.mem_singleton] at hc
      subst hc
      interval_cases n <;> decide
    · simp only [if_neg h10]
      intro c hc
      rcases List.mem_append.mp hc with hc | hc
      · exact ih (n / 10) (by omega) c hc
      · simp only [List.mem_singleton] at hc
        subst hc
        have hlt : n % 10 < 10 := Nat.mod_lt _ (by omega)
        interval_cases hh : n % 10 <;> simp_all [digitChar]

theorem toDec_digit (n : Nat) : ∀ c ∈ toDec n, 48 ≤ c.toNat ∧ c.toNat ≤ 57 :=
  toDecF_digit (n + 1) n (Nat.lt_succ_self n)

theorem toDec_ne_nil (n : Nat) : toDec n ≠ [] := by
  unfold toDec toDecF
  by_cases h : n < 10 <;> simp [h]

theorem displayClose_length (s : Str) :
    ∀ g1 g2 r, displayClose s = some (g1, g2, r) → r.length + 2 ≤ s.length := by
  induction s with
  | nil => intro g1 g2 r h; simp [displayClose] at h
  | cons c cs ih =>
    intro g1 g2 r h
    simp only [displayClose] at h
    split at h
    · rename_i hpre
      simp only [Option.some.injEq, Prod.mk.injEq] at h
      obtain ⟨-, -, hr⟩ := h
      have hlen := List.IsPrefix.length_le (List.isPrefixOf_iff_prefix.mp hpre)
      subst hr
      simp only [List.length_drop, List.length_cons] at *
      omega
    · split at h
      · rename_i hpre
        simp only [Option.some.injEq, Prod.mk.injEq] at h
        obtain ⟨-, -, hr⟩ := h
        have hlen := List.IsPrefix.length_le (List.isPrefixOf_iff_prefix.mp hpre)
        subst hr
        simp only [List.length_drop, List.length_cons] at *
        omega
      · cases hrec : displayClose cs with
        | none => rw [hrec] at h; simp at h
        | some p =>
          obtain ⟨a, b, r'⟩ := p
          rw [hrec] at h
          simp only [Option.map_some', Option.some.injEq, Prod.mk.injEq] at h
          obtain ⟨-, -, hr⟩ := h
          have := ih a b r' hrec
          subst hr
          simp only [List.length_cons]
          omega

theorem inlineClose_length (s : Str) :
    ∀ prev g1 r, inlineClose prev s = some (g1, r) → r.length + 1 ≤ s.length := by
  induction s with
  | nil => intro prev g1 r h; simp [inlineClose] at h
  | cons c cs ih =>
    intro prev g1 r h
    simp only [inlineClose] at h
    split at h
    · simp only [Option.some.injEq, Prod.mk.injEq] at h
      obtain ⟨-, hr⟩ := h
      subst hr
      simp
    · cases hrec : inlineClose c cs with
      | none => rw [hrec] at h; simp at h
      | some p =>
        obtain ⟨a, r'⟩ := p
        rw [hrec] at h
        simp only [Option.map_some', Option.some.injEq, Prod.mk.injEq] at h
        obtain ⟨-, hr⟩ := h
        have := ih c a r' hrec
        subst hr
        simp only [List.length_cons]
        omega

/-- C8: for the input `$$a$b$$`, `protect_existing_math` records the whole
span as one display-math block `$$a$b$$` (a single protected block, replaced
by the single display placeholder) and emits no inline-math match on the
inner `$...$` characters, because display spans are protected before inline
spans. -/
theorem C8_display_before_inline :
    protect_existing_math "$$a$b$$".toList =
      (placeholder 0, ["$$a$b$$".toList]) ∧
    (protect_existing_math "$$a$b$$".toList).2.length = 1 := by
  constructor <;> decide

/-- C2 (counterexample): protect/restore is not the identity on every text.
For `$ $$x$$ $` the display span `$$x$$` is protected first; the inline pass
then captures the span `$ __PROTECTED_MATH_0__ $`, so block 1 contains
placeholder 0, and the in-order restore loop replaces placeholder 0 before
placeholder 1 exists in the text, leaving a literal placeholder behind. -/
theorem C2_counterexample :
    restore_protected_math
        (protect_existing_math "$ $$x$$ $".toList).1
        (protect_existing_math "$ $$x$$ $".toList).2 =
      "$ __PROTECTED_MATH_0__ $".toList ∧
    restore_protected_math
        (protect_existing_math "$ $$x$$ $".toList).1
        (protect_existing_math "$ $$x$$ $".toList).2 ≠
      "$ $$x$$ $".toList := by
  constructor <;> decide

/-- C3 (counterexample): the guarded text can retain an unescaped `$`.
For the input consisting of a single `$`, neither pattern matches, so
`protect_existing_math` returns the text unchanged with an unescaped `$`. -/
theorem C3_counterexample :
    protect_existing_math "$".toList = ("$".toList, []) ∧
    noUnescapedDollar none (protect_existing_math "$".toList).1 = false := by
  constructor <;> decide

theorem firstIdx_of_occursB_false (pat s : Str) (h : occursB pat s = false) :
    firstIdx pat s = none := by
  induction s with
  | nil =>
    simp only [occursB, List.isEmpty_iff] at h
    simp [firstIdx, h]
  | cons c cs ih =>
    simp only [occursB, Bool.or_eq_false_iff] at h
    simp [firstIdx, h.1, ih h.2]

theorem firstIdx_spec (pat : Str) (s : Str) (i : Nat)
    (hhit : pat.isPrefixOf (s.drop i) = true)
    (hmin : ∀ k, k < i → ¬ pat.isPrefixOf (s.drop k) = true) :
    firstIdx pat s = some i := by
  induction s generalizing i with
  | nil =>
    cases i with
    | zero =>
      simp only [List.drop_nil, List.isPrefixOf_iff_prefix, List.prefix_nil] at hhit
      simp [firstIdx, hhit]
    | succ i' =>
      exact absurd (by simpa using hhit) (by simpa using hmin 0 (Nat.succ_pos i'))
  | cons c cs ih =>
    cases i with
    | zero => simp only [List.drop_zero] at hhit; simp [firstIdx, hhit]
    | succ i' =>
      have h0 : ¬ pat.isPrefixOf (c :: cs) = true := by
        simpa using hmin 0 (Nat.succ_pos i')
      have hrec : firstIdx pat cs = some i' := by
        apply ih
        · simpa using hhit
        · intro k hk
          simpa using hmin (k + 1) (by omega)
      simp [firstIdx, h0, hrec]

/-- C9 (counterexample): when the document markers are absent,
`remove_preamble` does not return the input unchanged — it strips
surrounding whitespace (`return content.strip()`). -/
theorem C9_counterexample :
    remove_preamble " x ".toList = "x".toList ∧
    remove_preamble " x ".toList ≠ " x ".toList := by
  constructor <;> decide

/-- C9 (amended): if either document marker is absent, `remove_preamble`
returns the whole input with surrounding whitespace stripped; when the
document is `p ++ \begin{document} ++ m ++ \end{document} ++ q` with the
displayed occurrences leftmost, it returns the between-text `m`, stripped. -/
theorem C9_remove_preamble :
    (∀ s : Str,
      occursB beginDocTok s = false ∨ occursB endDocTok s = false →
      remove_preamble s = pyStrip s) ∧
    (∀ p m q : Str,
      (∀ k, k < p.length →
        ¬ beginDocTok.isPrefixOf ((p ++ beginDocTok ++ m ++ endDocTok ++ q).drop k) = true) →
      (∀ k, k < p.length + beginDocTok.length + m.length →
        ¬ endDocTok.isPrefixOf ((p ++ beginDocTok ++ m ++ endDocTok ++ q).drop k) = true) →
      remove_preamble (p ++ beginDocTok ++ m ++ endDocTok ++ q) = pyStrip m) := by
  constructor
  · intro s h
    rcases h with h | h
    · rw [remove_preamble, firstIdx_of_occursB_false _ _ h]
    · rw [remove_preamble, firstIdx_of_occursB_false _ _ h]
      cases firstIdx beginDocTok s <;> rfl
  · intro p m q hb he
    have hdoc2 : (p ++ beginDocTok ++ m ++ endDocTok ++ q) =
        (p ++ beginDocTok) ++ (m ++ (endDocTok ++ q)) := by
      simp [List.append_assoc]
    have hdoc3 : (p ++ beginDocTok ++ m ++ endDocTok ++ q) =
        (p ++ beginDocTok ++ m) ++ (endDocTok ++ q) := by
      simp [List.append_assoc]
    have hbIdx : firstIdx beginDocTok (p ++ beginDocTok ++ m ++ endDocTok ++ q) =
        some p.length := by
      apply firstIdx_spec
      · have : (p ++ beginDocTok ++ m ++ endDocTok ++ q).drop p.length =
            beginDocTok ++ (m ++ (endDocTok ++ q)) := by
          rw [show (p ++ beginDocTok ++ m ++ endDocTok ++ q) =
            p ++ (beginDocTok ++ (m ++ (endDocTok ++ q))) by simp [List.append_assoc]]
          exact List.drop_left _ _
        rw [this]
        exact List.isPrefixOf_iff_prefix.mpr (List.prefix_append _ _)
      · exact hb
    have heIdx : firstIdx endDocTok (p ++ beginDocTok ++ m ++ endDocTok ++ q) =
        some (p.length + beginDocTok.length + m.length) := by
      apply firstIdx_spec
      · have : (p ++ beginDocTok ++ m ++ endDocTok ++ q).drop
            (p.length + beginDocTok.length + m.length) = endDocTok ++ q := by
          rw [hdoc3]
          apply List.drop_left'
          simp only [List.length_append]
        rw [this]
        exact List.isPrefixOf_iff_prefix.mpr (List.prefix_append _ _)
      · exact he
    have hslice : pySlice (p ++ beginDocTok ++ m ++ endDocTok ++ q)
        (p.length + beginDocTok.length) (p.length + beginDocTok.length + m.length) = m := by
      unfold pySlice
      have hdrop : (p ++ beginDocTok ++ m ++ endDocTok ++ q).drop
          (p.length + beginDocTok.length) = m ++ (endDocTok ++ q) := by
        rw [hdoc2]
        apply List.drop_left'
        simp
      rw [hdrop, Nat.add_sub_cancel_left]
      exact List.take_left' rfl
    simp only [remove_preamble, hbIdx, heIdx, hslice]

/-- Witness for `C9_remove_preamble` at concrete inputs. -/
theorem C9_remove_preamble_witness :
    remove_preamble " no markers ".toList = pyStrip " no markers ".toList ∧
    remove_preamble ("pre ".toList ++ beginDocTok ++ " body ".toList ++ endDocTok ++ " q".toList) =
      pyStrip " body ".toList :=
  ⟨C9_remove_preamble.1 _ (Or.inl (by decide)),
   C9_remove_preamble.2 "pre ".toList " body ".toList " q".toList (by decide) (by decide)⟩

theorem findSplit_none_of_occursB_false (pat s : Str) (h : occursB pat s = false) :
    findSplit pat s = none := by
  induction s with
  | nil =>
    simp only [occursB, List.isEmpty_iff] at h
    simp [findSplit, h]
  | cons c cs ih =>
    simp only [occursB, Bool.or_eq_false_iff] at h
    simp [findSplit, h.1, ih h.2]

theorem findSplit_of_isPrefixOf (pat s : Str) (hne : pat ≠ []) (hp : pat.isPrefixOf s = true) :
    findSplit pat s = some ([], s.drop pat.length) := by
  cases s with
  | nil =>
    rw [List.isPrefixOf_iff_prefix, List.prefix_nil] at hp
    exact absurd hp hne
  | cons c cs => simp [findSplit, hp]

theorem prefix_localize {pat x z : Str} (h : pat <+: x ++ z) (hle : pat.length ≤ x.length) :
    pat <+: x := by
  have h1 : pat = (x ++ z).take pat.length := List.prefix_iff_eq_take.mp h
  rw [List.take_append_eq_append_take, Nat.sub_eq_zero_of_le hle, List.take_zero,
    List.append_nil] at h1
  rw [h1]
  exact List.take_prefix _ _

theorem bsl_not_prefix (r x z : Str) (hnb : '\\' ∉ r) (hx : x ≠ [])
    (h0 : ('\\' :: r).isPrefixOf x = false) : ¬ ('\\' :: r) <+: (x ++ ('\\' :: r) ++ z) := by
  intro hpre
  rcases le_or_lt ('\\' :: r).length x.length with hle | hlt
  · rw [List.append_assoc] at hpre
    have := List.isPrefixOf_iff_prefix.mpr (prefix_localize hpre hle)
    rw [h0] at this
    exact Bool.false_ne_true this
  · -- the pattern overhangs `x`, so its character at index `x.length` is a
    -- backslash strictly inside `r`, contradiction
    have hxp : x <+: ('\\' :: r) := by
      rw [List.append_assoc] at hpre
      exact List.prefix_of_prefix_length_le (List.prefix_append _ _) hpre (Nat.le_of_lt hlt)
    obtain ⟨t, ht⟩ := hxp
    have htne : t ≠ [] := by
      intro hteq
      rw [hteq, List.append_nil] at ht
      rw [ht] at hlt
      omega
    have ht2 : t <+: ('\\' :: r) ++ z := by
      have := hpre
      rw [List.append_assoc, ← ht, List.prefix_append_right_inj] at this
      rw [← ht]
      exact this
    cases t with
    | nil => exact htne rfl
    | cons c t' =>
      rw [show ('\\' :: r) ++ z = '\\' :: (r ++ z) from rfl, List.cons_prefix_cons] at ht2
      cases x with
      | nil => exact hx rfl
      | cons x0 x' =>
        rw [List.cons_append, List.cons.injEq] at ht
        apply hnb
        rw [← ht.2, ht2.1]
        exact List.mem_append_right _ (List.mem_cons_self _ _)

theorem findSplit_bsl (r x y : Str) (hnb : '\\' ∉ r)
    (hocc : occursB ('\\' :: r) x = false) :
    findSplit ('\\' :: r) (x ++ ('\\' :: r) ++ y) = some (x, y) := by
  induction x with
  | nil =>
    rw [List.nil_append, findSplit_of_isPrefixOf _ _ (by simp)
      (List.isPrefixOf_iff_prefix.mpr (List.prefix_append _ _))]
    simp
  | cons a x' ih =>
    simp only [occursB, Bool.or_eq_false_iff] at hocc
    have hnp : ¬ ('\\' :: r).isPrefixOf (a :: (x' ++ ('\\' :: r) ++ y)) = true := by
      intro hcon
      refine bsl_not_prefix r (a :: x') y hnb (by simp) hocc.1 ?_
      rw [← List.isPrefixOf_iff_prefix]
      simpa using hcon
    rw [show ((a :: x') ++ ('\\' :: r) ++ y) = a :: (x' ++ ('\\' :: r) ++ y) by simp]
    simp only [findSplit, List.append_eq]
    rw [if_neg hnp, ih hocc.2]
    rfl

theorem findSplit_single (c : Char) (x y : Str) (hc : c ∉ x) :
    findSplit [c] (x ++ c :: y) = some (x, y) := by
  induction x with
  | nil =>
    rw [List.nil_append, findSplit_of_isPrefixOf _ _ (by simp) (by simp [List.isPrefixOf_iff_prefix])]
    simp
  | cons a x' ih =>
    have hac : a ≠ c := fun h => hc (h ▸ List.mem_cons_self _ _)
    have hnp : ¬ [c].isPrefixOf (a :: (x' ++ c :: y)) = true := by
      rw [List.isPrefixOf_iff_prefix]
      intro h
      rw [show a :: (x' ++ c :: y) = a :: (x' ++ c :: y) from rfl, List.cons_prefix_cons] at h
      exact hac h.1.symm
    simp only [List.cons_append, findSplit, List.append_eq]
    rw [if_neg hnp, ih (fun h => hc (List.mem_cons_of_mem _ h))]
    rfl

theorem occursB_cons_false {pat : Str} {c : Char} {cs : Str}
    (h : occursB pat (c :: cs) = false) :
    pat.isPrefixOf (c :: cs) = false ∧ occursB pat cs = false := by
  simpa [occursB, Bool.or_eq_false_iff] using h

theorem singleton_isPrefixOf_iff (c : Char) (X : Str) :
    [c].isPrefixOf X = true ↔ X.head? = some c := by
  cases X with
  | nil => simp [List.isPrefixOf]
  | cons a Y =>
    constructor
    · intro h
      simp only [List.isPrefixOf, Bool.and_eq_true, beq_iff_eq] at h
      simp [List.head?, h.1]
    · intro h
      simp only [List.head?, Option.some.injEq] at h
      subst h
      simp [List.isPrefixOf]

theorem stripMathParens_sublist : ∀ (n : Nat) (s : Str), s.length ≤ n →
    List.Sublist (stripMathParens s) s := by
  intro n
  induction n with
  | zero =>
    intro s hs
    rw [List.length_eq_zero.mp (Nat.le_zero.mp hs)]
    simp [stripMathParens]
  | succ m ih =>
    intro s hs
    match s with
    | [] => simp [stripMathParens]
    | [c] => simp [stripMathParens]
    | c :: d :: cs =>
      simp only [stripMathParens]
      split
      · refine List.Sublist.trans ?_
          ((List.sublist_cons_self d cs).trans (List.sublist_cons_self c (d :: cs)))
        apply ih
        simp only [List.length_cons] at hs
        omega
      · exact List.Sublist.cons₂ c (ih (d :: cs) (by simp only [List.length_cons] at hs ⊢; omega))

theorem stripMathParens_head (s : Str) (c : Char)
    (h : (stripMathParens s).head? = some c) :
    s.head? = some c ∨ (∃ t, s = '\\' :: '(' :: t) ∨ (∃ t, s = '\\' :: ')' :: t) := by
  match s with
  | [] => simp [stripMathParens] at h
  | [a] =>
    simp only [stripMathParens, List.head?, Option.some.injEq] at h
    exact Or.inl (by simp [h])
  | a :: d :: cs =>
    simp only [stripMathParens] at h
    split at h
    · rename_i hcond
      rcases hcond.2 with h2 | h2
      · exact Or.inr (Or.inl ⟨cs, by rw [hcond.1, h2]⟩)
      · exact Or.inr (Or.inr ⟨cs, by rw [hcond.1, h2]⟩)
    · simp only [List.head?, Option.some.injEq] at h
      exact Or.inl (by simp [h])

theorem stripMathParens_no_delims : ∀ (n : Nat) (s : Str), s.length ≤ n →
    occursB ['\\', '\\', '('] s = false → occursB ['\\', '\\', ')'] s = false →
    occursB ['\\', '('] (stripMathParens s) = false ∧
    occursB ['\\', ')'] (stripMathParens s) = false := by
  intro n
  induction n with
  | zero =>
    intro s hs _ _
    rw [List.length_eq_zero.mp (Nat.le_zero.mp hs)]
    simp [stripMathParens, occursB]
  | succ m ih =>
    intro s hs hop hcl
    match s with
    | [] => simp [stripMathParens, occursB]
    | [a] =>
      simp only [stripMathParens]
      constructor <;> simp [occursB, List.isPrefixOf]
    | a :: d :: cs =>
      have hop1 := (occursB_cons_false hop).2
      have hop2 := (occursB_cons_false hop1).2
      have hcl1 := (occursB_cons_false hcl).2
      have hcl2 := (occursB_cons_false hcl1).2
      simp only [stripMathParens]
      split
      · exact ih cs (by simp only [List.length_cons] at hs; omega) hop2 hcl2
      · rename_i hmiss
        have hrec := ih (d :: cs) (by simp only [List.length_cons] at hs ⊢; omega) hop1 hcl1
        have hhead : ∀ (e : Char), e = '(' ∨ e = ')' → a = '\\' →
            (stripMathParens (d :: cs)).head? = some e → False := by
          intro e he ha hh
          rcases stripMathParens_head _ _ hh with h1 | ⟨t, h1⟩ | ⟨t, h1⟩
          · simp only [List.head?, Option.some.injEq] at h1
            exact hmiss ⟨ha, by rcases he with he' | he' <;> simp [h1, he']⟩
          · have := (occursB_cons_false hop).1
            rw [ha, h1] at *
            simp [List.isPrefixOf] at this
          · have := (occursB_cons_false hcl).1
            rw [ha, h1] at *
            simp [List.isPrefixOf] at this
        constructor
        · simp only [occursB, Bool.or_eq_false_iff]
          refine ⟨?_, hrec.1⟩
          by_contra hcon
          rw [Bool.not_eq_false] at hcon
          simp only [List.isPrefixOf, Bool.and_eq_true, beq_iff_eq] at hcon
          exact hhead '(' (Or.inl rfl) hcon.1.symm
            ((singleton_isPrefixOf_iff _ _).mp hcon.2)
        · simp only [occursB, Bool.or_eq_false_iff]
          refine ⟨?_, hrec.2⟩
          by_contra hcon
          rw [Bool.not_eq_false] at hcon
          simp only [List.isPrefixOf, Bool.and_eq_true, beq_iff_eq] at hcon
          exact hhead ')' (Or.inr rfl) hcon.1.symm
            ((singleton_isPrefixOf_iff _ _).mp hcon.2)

theorem tabularSubF_id (fuel : Nat) (s : Str) (h : occursB beginTabTok s = false) :
    tabularSubF fuel s = s := by
  cases fuel with
  | zero => rfl
  | succ f => simp [tabularSubF, findSplit_none_of_occursB_false _ _ h]

theorem centerTabSubF_id (fuel : Nat) (s : Str) (h : occursB beginCenterTok s = false) :
    centerTabSubF fuel s = s := by
  cases fuel with
  | zero => rfl
  | succ f => simp [centerTabSubF, findSplit_none_of_occursB_false _ _ h]

/-- C7 (counterexample): the stripped table body can retain an inline-math
delimiter.  For the cell text `\\((` the left-to-right removal of `\(`
deletes the middle two characters and the remaining backslash joins the
remaining parenthesis into a new `\(`, which survives into the array block. -/
theorem C7_counterexample :
    convert_tabular_to_array "\\begin{tabular}{c}\\\\((\\end{tabular}".toList =
      "\n$$\n\\begin{array}{c}\\(\\end{array}\n$$\n".toList ∧
    occursB "\\(".toList
      (convert_tabular_to_array "\\begin{tabular}{c}\\\\((\\end{tabular}".toList) = true := by
  constructor <;> decide

/-- C7 (amended): a standalone `tabular` whose pieces are located by the
stated leftmost-occurrence conditions becomes a single display-math `array`
block whose column-spec group is kept verbatim; all `$` are removed from the
body, and no `\(` or `\)` remains provided the dollar-stripped body contains
no overlapping escape `\\(` or `\\)`. -/
theorem C7_tabular_to_array (pre spec body post : Str)
    (hcenter : occursB beginCenterTok
      (pre ++ beginTabTok ++ ('\x7b' :: spec) ++ ('\x7d' :: body) ++ endTabTok ++ post) = false)
    (hpre : occursB beginTabTok pre = false)
    (hspec : '\x7d' ∉ spec)
    (hbody : occursB endTabTok body = false)
    (hpost : occursB beginTabTok post = false)
    (hop : occursB ['\\', '\\', '('] (stripDollars body) = false)
    (hcl : occursB ['\\', '\\', ')'] (stripDollars body) = false) :
    convert_tabular_to_array
        (pre ++ beginTabTok ++ ('\x7b' :: spec) ++ ('\x7d' :: body) ++ endTabTok ++ post) =
      pre ++ arrayBlock ('\x7b' :: spec ++ ['\x7d']) body ++ post ∧
    (∀ c ∈ stripMathParens (stripDollars body), c ≠ '$') ∧
    occursB ['\\', '('] (stripMathParens (stripDollars body)) = false ∧
    occursB ['\\', ')'] (stripMathParens (stripDollars body)) = false := by
  set doc := pre ++ beginTabTok ++ ('\x7b' :: spec) ++ ('\x7d' :: body) ++ endTabTok ++ post with hdocdef
  have hshape : doc = pre ++ (beginTabTok ++
      ('\x7b' :: (spec ++ ('\x7d' :: (body ++ (endTabTok ++ post)))))) := by
    simp [hdocdef, List.append_assoc]
  refine ⟨?_, ?_, ?_, ?_⟩
  · have hs1 : centerTabSubF doc.length doc = doc := centerTabSubF_id _ _ hcenter
    unfold convert_tabular_to_array
    rw [hs1]
    show tabularSubF doc.length doc = pre ++ arrayBlock ('\x7b' :: spec ++ ['\x7d']) body ++ post
    obtain ⟨k, hk⟩ : ∃ k, doc.length = k + 1 := by
      refine ⟨doc.length - 1, ?_⟩
      have : doc.length ≠ 0 := by
        intro hzero
        rw [List.length_eq_zero] at hzero
        rw [hshape] at hzero
        cases pre <;> simp at hzero
      omega
    rw [hk]
    have hbt : beginTabTok = '\\' :: "begin{tabular}".toList := rfl
    have hfind : findSplit beginTabTok doc =
        some (pre, '\x7b' :: (spec ++ ('\x7d' :: (body ++ (endTabTok ++ post))))) := by
      rw [hshape, hbt]
      rw [show pre ++ ('\\' :: "begin{tabular}".toList ++
          ('\x7b' :: (spec ++ ('\x7d' :: (body ++ (endTabTok ++ post)))))) =
        pre ++ ('\\' :: "begin{tabular}".toList) ++
          ('\x7b' :: (spec ++ ('\x7d' :: (body ++ (endTabTok ++ post))))) by
        simp [List.append_assoc]]
      exact findSplit_bsl _ _ _ (by decide) (hbt ▸ hpre)
    have hspecFind : parseColumnSpec
        ('\x7b' :: (spec ++ ('\x7d' :: (body ++ (endTabTok ++ post))))) =
        some ('\x7b' :: spec ++ ['\x7d'], body ++ (endTabTok ++ post)) := by
      simp only [parseColumnSpec]
      rw [show spec ++ ('\x7d' :: (body ++ (endTabTok ++ post))) =
        spec ++ '\x7d' :: (body ++ (endTabTok ++ post)) from rfl]
      rw [findSplit_single _ _ _ hspec]
      rfl
    have het : endTabTok = '\\' :: "end{tabular}".toList := rfl
    have hendFind : findSplit endTabTok (body ++ (endTabTok ++ post)) =
        some (body, post) := by
      rw [het, show body ++ ('\\' :: "end{tabular}".toList ++ post) =
        body ++ ('\\' :: "end{tabular}".toList) ++ post by simp [List.append_assoc]]
      exact findSplit_bsl _ _ _ (by decide) (het ▸ hbody)
    simp only [tabularSubF, hfind, hspecFind, hendFind]
    rw [tabularSubF_id _ _ hpost]
  · intro c hc
    have hmem : c ∈ stripDollars body :=
      (stripMathParens_sublist (stripDollars body).length _ le_rfl).subset hc
    simp only [stripDollars, List.mem_filter, decide_eq_true_eq] at hmem
    exact hmem.2
  · exact (stripMathParens_no_delims (stripDollars body).length _ le_rfl hop hcl).1
  · exact (stripMathParens_no_delims (stripDollars body).length _ le_rfl hop hcl).2

/-- Witness for `C7_tabular_to_array` at a concrete table whose cells
contain inline math. -/
theorem C7_tabular_to_array_witness :
    convert_tabular_to_array
        ("A ".toList ++ beginTabTok ++ ('\x7b' :: "rcl".toList) ++
          ('\x7d' :: "x $y$ \\\\ z".toList) ++ endTabTok ++ " B".toList) =
      "A ".toList ++ arrayBlock ('\x7b' :: "rcl".toList ++ ['\x7d']) "x $y$ \\\\ z".toList ++
        " B".toList ∧
    (∀ c ∈ stripMathParens (stripDollars "x $y$ \\\\ z".toList), c ≠ '$') ∧
    occursB ['\\', '('] (stripMathParens (stripDollars "x $y$ \\\\ z".toList)) = false ∧
    occursB ['\\', ')'] (stripMathParens (stripDollars "x $y$ \\\\ z".toList)) = false :=
  C7_tabular_to_array "A ".toList "rcl".toList "x $y$ \\\\ z".toList " B".toList
    (by decide) (by decide) (by decide) (by decide) (by decide) (by decide) (by decide)

theorem occursB_append_false_right (pat u t : Str) (h : occursB pat (u ++ t) = false) :
    occursB pat t = false := by
  induction u with
  | nil => exact h
  | cons a u' ih => exact ih (occursB_cons_false h).2

theorem extractTitle_suffix : ∀ (n : Nat) (depth : Nat) (s : Str), s.length ≤ n →
    ∃ u, s = u ++ (extractTitle depth s).2 := by
  intro n
  induction n with
  | zero =>
    intro depth s hs
    rw [List.length_eq_zero.mp (Nat.le_zero.mp hs)]
    exact ⟨[], rfl⟩
  | succ m ih =>
    intro depth s hs
    match s with
    | [] => exact ⟨[], rfl⟩
    | [c] =>
      simp only [extractTitle]
      by_cases h1 : c = '\x7b'
      · exact ⟨[c], by simp [h1]⟩
      · by_cases h2 : c = '\x7d'
        · by_cases h3 : depth = 1
          · exact ⟨[c], by simp [h1, h2, h3]⟩
          · exact ⟨[c], by simp [h1, h2, h3]⟩
        · exact ⟨[c], by simp [h1, h2]⟩
    | c :: d :: cs =>
      simp only [extractTitle]
      by_cases h1 : c = '\\'
      · obtain ⟨u, hu⟩ := ih depth cs (by simp only [List.length_cons] at hs; omega)
        exact ⟨c :: d :: u, by simp [h1, ← hu]⟩
      · by_cases h2 : c = '\x7b'
        · obtain ⟨u, hu⟩ := ih (depth + 1) (d :: cs)
            (by simp only [List.length_cons] at hs ⊢; omega)
          exact ⟨c :: u, by simp [h1, h2, ← hu]⟩
        · by_cases h3 : c = '\x7d'
          · by_cases h4 : depth = 1
            · exact ⟨[c], by simp [h1, h2, h3, h4]⟩
            · obtain ⟨u, hu⟩ := ih (depth - 1) (d :: cs)
                (by simp only [List.length_cons] at hs ⊢; omega)
              exact ⟨c :: u, by simp [h1, h2, h3, h4, ← hu]⟩
          · obtain ⟨u, hu⟩ := ih depth (d :: cs)
              (by simp only [List.length_cons] at hs ⊢; omega)
            exact ⟨c :: u, by simp [h1, h2, h3, ← hu]⟩

theorem boxPassF_nomatch (rec : Str → Str) (f : Nat) (s : Str)
    (h : findBoxStart s = none) : boxPassF rec f s = (s, false) := by
  cases f with
  | zero => rfl
  | succ f' => simp [boxPassF, h]

theorem findBoxStart_none_of (s : Str)
    (h : ∀ k, k < s.length → tryMarker (s.drop k) = none) : findBoxStart s = none := by
  induction s with
  | nil => rfl
  | cons c cs ih =>
    have h0 : tryMarker (c :: cs) = none := by simpa using h 0 (by simp)
    have hrest : findBoxStart cs = none := by
      apply ih
      intro k hk
      simpa using h (k + 1) (by simpa using Nat.succ_lt_succ hk)
    simp [findBoxStart, h0, hrest]

theorem takeWhile_all_append (p : Char → Bool) (X z : Str) (y : Char)
    (hX : ∀ c ∈ X, p c = true) (hy : p y = false) :
    (X ++ y :: z).takeWhile p = X ∧ (X ++ y :: z).dropWhile p = y :: z := by
  induction X with
  | nil => simp [List.takeWhile, List.dropWhile, hy]
  | cons a X' ih =>
    have ha : p a = true := hX a (List.mem_cons_self _ _)
    have := ih (fun c hc => hX c (List.mem_cons_of_mem _ hc))
    simp only [List.cons_append, List.takeWhile_cons, List.dropWhile_cons, ha, if_pos]
    constructor
    · rw [this.1]
    · rw [this.2]

theorem tryMarker_marker (X r : Str) (hname : boxNameOK X = true) :
    tryMarker (beginMarker X ++ r) = some (X, r) := by
  have hword : ∀ c ∈ X, isWordChar c = true := by
    intro c hc
    have h1 : X.all isWordChar = true := by
      simp only [boxNameOK, Bool.and_eq_true] at hname
      exact hname.1.1
    exact (List.all_eq_true.mp h1) c hc
  have hpre : beginTok.isPrefixOf (beginMarker X ++ r) = true := by
    rw [List.isPrefixOf_iff_prefix]
    rw [show beginMarker X ++ r = beginTok ++ (X ++ "\x7d\x7b".toList ++ r) by
      simp [beginMarker, List.append_assoc]]
    exact List.prefix_append _ _
  have hdrop : (beginMarker X ++ r).drop beginTok.length = X ++ '\x7d' :: ('\x7b' :: r) := by
    rw [show beginMarker X ++ r = beginTok ++ (X ++ '\x7d' :: ('\x7b' :: r)) by
      simp [beginMarker, List.append_assoc]]
    exact List.drop_left _ _
  have hsplit := takeWhile_all_append isWordChar X ('\x7b' :: r) '\x7d' hword (by decide)
  simp only [tryMarker, hpre, if_pos, hdrop, hsplit.1, hsplit.2]
  rw [if_pos]
  · rfl
  · simp only [hname, Bool.true_and]
    rw [show "\x7d\x7b".toList = ['\x7d', '\x7b'] from rfl]
    simp [List.isPrefixOf]

theorem findBoxStart_marker (X r : Str) (hname : boxNameOK X = true) :
    findBoxStart (beginMarker X ++ r) = some ([], X, r) := by
  have hshape : beginMarker X ++ r =
      '\\' :: ("begin\x7b".toList ++ X ++ "\x7d\x7b".toList ++ r) := by
    simp [beginMarker, beginTok, List.append_assoc]
  rw [hshape, findBoxStart, ← hshape, tryMarker_marker X r hname]

theorem findBoxStart_append (p q : Str)
    (h : ∀ k, k < p.length → tryMarker ((p ++ q).drop k) = none) :
    findBoxStart (p ++ q) = (findBoxStart q).map (fun v => (p ++ v.1, v.2.1, v.2.2)) := by
  induction p with
  | nil =>
    simp only [List.nil_append]
    cases hq : findBoxStart q with
    | none => simp
    | some v => simp
  | cons a p' ih =>
    have h0 : tryMarker (a :: (p' ++ q)) = none := by simpa using h 0 (by simp)
    have hrest := ih (fun k hk => by simpa using h (k + 1) (by simpa using Nat.succ_lt_succ hk))
    show findBoxStart (a :: (p' ++ q)) = _
    rw [show findBoxStart (a :: (p' ++ q)) =
      (match tryMarker (a :: (p' ++ q)) with
       | some (name, rest) => some ([], name, rest)
       | none => (findBoxStart (p' ++ q)).map (fun v => (a :: v.1, v.2.1, v.2.2))) from rfl]
    rw [h0, hrest]
    cases findBoxStart q with
    | none => rfl
    | some v => rfl

theorem extractTitle_clean (t r : Str) (ht : titleOK t = true) :
    extractTitle 1 (t ++ '\x7d' :: r) = (t, r) := by
  induction t with
  | nil =>
    cases r with
    | nil => simp [extractTitle]
    | cons d cs => simp [extractTitle]
  | cons a t' ih =>
    have hmem : ∀ c ∈ a :: t', ¬(c = '\\') ∧ ¬(c = '\x7b') ∧ ¬(c = '\x7d') := by
      intro c hc
      have := (List.all_eq_true.mp ht) c hc
      simp only [Bool.not_eq_true', Bool.or_eq_false_iff, beq_eq_false_iff_ne, ne_eq] at this
      exact ⟨this.1.1, this.1.2, this.2⟩
    obtain ⟨ha1, ha2, ha3⟩ := hmem a (List.mem_cons_self _ _)
    have ht' : titleOK t' = true := by
      simp only [titleOK, List.all_eq_true]
      intro c hc
      obtain ⟨h1, h2, h3⟩ := hmem c (List.mem_cons_of_mem _ hc)
      simp [h1, h2, h3]
    have hih := ih ht'
    obtain ⟨d, cs, hdc⟩ : ∃ d cs, t' ++ '\x7d' :: r = d :: cs := by
      cases hx : t' ++ '\x7d' :: r with
      | nil => simp at hx
      | cons d cs => exact ⟨d, cs, rfl⟩
    rw [show (a :: t') ++ '\x7d' :: r = a :: (t' ++ '\x7d' :: r) from rfl, hdc]
    simp only [extractTitle, if_neg ha1, if_neg ha2, if_neg ha3]
    rw [← hdc, hih]

theorem boxConvert_id (d : Nat) (s : Str) (h : findBoxStart s = none) :
    boxConvert d s = s := by
  cases d with
  | zero => rfl
  | succ d' => simp [boxConvert, boxPassF_nomatch _ _ _ h]

theorem boxName_no_backslash (X : Str) (hX : boxNameOK X = true) : '\\' ∉ X := by
  intro hmem
  simp only [boxNameOK, Bool.and_eq_true] at hX
  have := (List.all_eq_true.mp hX.1.1) '\\' hmem
  simp [isWordChar] at this

theorem endTag_shape (X : Str) :
    endTag X = '\\' :: ("end\x7b".toList ++ X ++ ['\x7d']) := by
  simp [endTag, List.append_assoc]

theorem endTag_tail_no_backslash (X : Str) (hX : boxNameOK X = true) :
    '\\' ∉ "end\x7b".toList ++ X ++ ['\x7d'] := by
  intro hmem
  rcases List.mem_append.mp hmem with hmem | hmem
  · rcases List.mem_append.mp hmem with hmem | hmem
    · exact absurd hmem (by decide)
    · exact boxName_no_backslash X hX hmem
  · exact absurd hmem (by decide)

theorem boxPassF_one_box (rec : Str → Str) (fuel : Nat) (p X tX body rest : Str)
    (hX : boxNameOK X = true) (htX : titleOK tX = true)
    (hp : ∀ k, k < p.length →
      tryMarker ((p ++ (beginMarker X ++ (tX ++ '\x7d' :: (body ++ (endTag X ++ rest))))).drop k)
        = none)
    (hend : occursB (endTag X) body = false)
    (hrest : findBoxStart rest = none) :
    boxPassF rec (fuel + 1) (p ++ (beginMarker X ++ (tX ++ '\x7d' :: (body ++ (endTag X ++ rest)))))
      = (p ++ boxTag X tX (rec (pyStrip body)) ++ rest, true) := by
  have hfind : findBoxStart
      (p ++ (beginMarker X ++ (tX ++ '\x7d' :: (body ++ (endTag X ++ rest))))) =
      some (p, X, tX ++ '\x7d' :: (body ++ (endTag X ++ rest))) := by
    rw [findBoxStart_append _ _ hp, findBoxStart_marker _ _ hX]
    simp
  have htitle : extractTitle 1 (tX ++ '\x7d' :: (body ++ (endTag X ++ rest))) =
      (tX, body ++ (endTag X ++ rest)) := extractTitle_clean _ _ htX
  have hsplit : findSplit (endTag X) (body ++ (endTag X ++ rest)) = some (body, rest) := by
    rw [endTag_shape]
    rw [show body ++ ('\\' :: ("end\x7b".toList ++ X ++ ['\x7d']) ++ rest) =
      body ++ ('\\' :: ("end\x7b".toList ++ X ++ ['\x7d'])) ++ rest by simp [List.append_assoc]]
    exact findSplit_bsl _ _ _ (endTag_tail_no_backslash X hX)
      ((endTag_shape X) ▸ hend)
  simp only [boxPassF, hfind, htitle, hsplit, boxPassF_nomatch _ _ _ hrest]

theorem boxConvert_one_box (d : Nat) (p X tX body rest : Str)
    (hX : boxNameOK X = true) (htX : titleOK tX = true)
    (hp : ∀ k, k < p.length →
      tryMarker ((p ++ (beginMarker X ++ (tX ++ '\x7d' :: (body ++ (endTag X ++ rest))))).drop k)
        = none)
    (hend : occursB (endTag X) body = false)
    (hrest : findBoxStart rest = none)
    (hfinal : findBoxStart (p ++ boxTag X tX (boxConvert d (pyStrip body)) ++ rest) = none) :
    boxConvert (d + 1) (p ++ (beginMarker X ++ (tX ++ '\x7d' :: (body ++ (endTag X ++ rest)))))
      = p ++ boxTag X tX (boxConvert d (pyStrip body)) ++ rest := by
  obtain ⟨k, hk⟩ : ∃ k,
      (p ++ (beginMarker X ++ (tX ++ '\x7d' :: (body ++ (endTag X ++ rest))))).length = k + 1 := by
    refine ⟨(p ++ (beginMarker X ++ (tX ++ '\x7d' :: (body ++ (endTag X ++ rest))))).length - 1, ?_⟩
    have hne : (beginMarker X).length ≠ 0 := by simp [beginMarker, beginTok]
    simp only [List.length_append, List.length_cons]
    omega
  simp only [boxConvert, hk,
    boxPassF_one_box (boxConvert d) k p X tX body rest hX htX hp hend hrest, hfinal]
  simp

/-- C5 (counterexample): an unterminated box does not leave all trailing
content unchanged.  In `\begin{a_box}{t} \begin{b_box}{u}x\end{b_box}` the
`a_box` marker has no matching end and is preserved, but scanning continues
past it and converts the complete `b_box` in the trailing text, so the
output differs from the input. -/
theorem C5_counterexample :
    boxConvert 10 "\\begin{a_box}{t} \\begin{b_box}{u}x\\end{b_box}".toList =
      "\\begin{a_box}{t} <Box title=\"u\">\n\nx\n\n</Box>".toList ∧
    boxConvert 10 "\\begin{a_box}{t} \\begin{b_box}{u}x\\end{b_box}".toList ≠
      "\\begin{a_box}{t} \\begin{b_box}{u}x\\end{b_box}".toList := by
  constructor <;> decide

/-- C5 (amended): an opening box marker with no matching `\end{X}` anywhere
after it is kept verbatim (`match.group(0)`), nothing is dropped, and the
scan continues just past the marker — so when the remainder contains no
further box marker, the whole document is returned unchanged, at every
recursion depth. -/
theorem C5_unterminated_box (d : Nat) (X rest : Str)
    (hname : boxNameOK X = true)
    (hnom : ∀ k, k < rest.length → tryMarker (rest.drop k) = none)
    (hend : occursB (endTag X) rest = false) :
    boxConvert d (beginMarker X ++ rest) = beginMarker X ++ rest := by
  have hpass : ∀ f rec, boxPassF rec f (beginMarker X ++ rest) = (beginMarker X ++ rest, false) := by
    intro f rec
    cases f with
    | zero => rfl
    | succ f' =>
      have hfind := findBoxStart_marker X rest hname
      have hrest0 : findBoxStart rest = none := findBoxStart_none_of rest hnom
      obtain ⟨u, hu⟩ := extractTitle_suffix rest.length 1 rest le_rfl
      have hend2 : occursB (endTag X) (extractTitle 1 rest).2 = false := by
        apply occursB_append_false_right _ u
        rw [← hu]
        exact hend
      have hsplit : findSplit (endTag X) (extractTitle 1 rest).2 = none :=
        findSplit_none_of_occursB_false _ _ hend2
      simp only [boxPassF, hfind, hsplit, boxPassF_nomatch _ _ _ hrest0]
      simp
  cases d with
  | zero => rfl
  | succ d' => simp [boxConvert, hpass]

/-- Witness for `C5_unterminated_box` at a concrete unterminated box. -/
theorem C5_unterminated_box_witness :
    boxConvert 10 (beginMarker "dem_box".toList ++ "My title\x7d and trailing text".toList) =
      beginMarker "dem_box".toList ++ "My title\x7d and trailing text".toList :=
  C5_unterminated_box 10 "dem_box".toList "My title\x7d and trailing text".toList
    (by decide) (by decide) (by decide)

/-- C4: a box of family name `A` whose body contains a complete box of a
different family name `B` is converted inside-out: the inner `B` box is
converted first (at depth − 1), and the emitted `A` tag wraps the fully
converted `B` tag; under the stated no-further-marker conditions the output
contains no unconverted box marker. -/
theorem C4_nested_boxes (n : Nat) (p A tA b1 B tB c b2 s : Str)
    (hA : boxNameOK A = true) (hB : boxNameOK B = true)
    (htA : titleOK tA = true) (htB : titleOK tB = true)
    (hp : ∀ k, k < p.length →
      tryMarker ((p ++ (beginMarker A ++ (tA ++ '\x7d' ::
        ((b1 ++ (beginMarker B ++ (tB ++ '\x7d' :: (c ++ (endTag B ++ b2))))) ++
          (endTag A ++ s))))).drop k) = none)
    (hendA : occursB (endTag A)
      (b1 ++ (beginMarker B ++ (tB ++ '\x7d' :: (c ++ (endTag B ++ b2))))) = false)
    (hb1 : ∀ k, k < b1.length →
      tryMarker ((b1 ++ (beginMarker B ++ (tB ++ '\x7d' :: (c ++ (endTag B ++ b2))))).drop k)
        = none)
    (hendB : occursB (endTag B) c = false)
    (hc : findBoxStart c = none)
    (hb2 : findBoxStart b2 = none)
    (hs : findBoxStart s = none)
    (hStripA : pyStrip (b1 ++ (beginMarker B ++ (tB ++ '\x7d' :: (c ++ (endTag B ++ b2))))) =
      b1 ++ (beginMarker B ++ (tB ++ '\x7d' :: (c ++ (endTag B ++ b2)))))
    (hStripC : pyStrip c = c)
    (hinner : findBoxStart (b1 ++ boxTag B tB c ++ b2) = none)
    (houter : findBoxStart (p ++ boxTag A tA (b1 ++ boxTag B tB c ++ b2) ++ s) = none) :
    boxConvert (n + 2)
        (p ++ (beginMarker A ++ (tA ++ '\x7d' ::
          ((b1 ++ (beginMarker B ++ (tB ++ '\x7d' :: (c ++ (endTag B ++ b2))))) ++
            (endTag A ++ s)))))
      = p ++ boxTag A tA (b1 ++ boxTag B tB c ++ b2) ++ s := by
  have hinnerConv : boxConvert (n + 1)
      (pyStrip (b1 ++ (beginMarker B ++ (tB ++ '\x7d' :: (c ++ (endTag B ++ b2)))))) =
      b1 ++ boxTag B tB c ++ b2 := by
    rw [hStripA]
    have := boxConvert_one_box n b1 B tB c b2 hB htB hb1 hendB hb2
      (by rw [hStripC, boxConvert_id _ _ hc]; exact hinner)
    rw [this, hStripC, boxConvert_id _ _ hc]
  have := boxConvert_one_box (n + 1) p A tA
    (b1 ++ (beginMarker B ++ (tB ++ '\x7d' :: (c ++ (endTag B ++ b2))))) s hA htA hp hendA hs
    (by rw [hinnerConv]; exact houter)
  rw [this, hinnerConv]

/-- Witness for `C4_nested_boxes` at a concrete nested document. -/
theorem C4_nested_boxes_witness :
    boxConvert 10
        ("P ".toList ++ (beginMarker "dem_box".toList ++ ("T1".toList ++ '\x7d' ::
          (("u ".toList ++ (beginMarker "ejem_box".toList ++ ("T2".toList ++ '\x7d' ::
            ("inner".toList ++ (endTag "ejem_box".toList ++ " v".toList))))) ++
            (endTag "dem_box".toList ++ " S".toList)))))
      = "P ".toList ++ boxTag "dem_box".toList "T1".toList
          ("u ".toList ++ boxTag "ejem_box".toList "T2".toList "inner".toList ++ " v".toList) ++
        " S".toList :=
  C4_nested_boxes 8 "P ".toList "dem_box".toList "T1".toList "u ".toList "ejem_box".toList
    "T2".toList "inner".toList " v".toList " S".toList
    (by decide) (by decide) (by decide) (by decide) (by decide) (by decide) (by decide)
    (by decide) (by decide) (by decide) (by decide) (by decide) (by decide) (by decide)
    (by decide)

theorem replaceAllF_id (pat rep : Str) :
    ∀ (fuel : Nat) (s : Str), occursB pat s = false → replaceAllF pat rep fuel s = s := by
  intro fuel
  induction fuel with
  | zero => intro s _; rfl
  | succ f ih =>
    intro s h
    cases s with
    | nil => rfl
    | cons c cs =>
      have hc := occursB_cons_false h
      simp only [replaceAllF]
      rw [if_neg (by simp [hc.1]), ih cs hc.2]

theorem replaceAll_id (pat rep s : Str) (h : occursB pat s = false) :
    replaceAll pat rep s = s := replaceAllF_id pat rep s.length s h

theorem envSubF_id (bTok eTok : Str) (render : Str → Str) (fuel : Nat) (s : Str)
    (h : occursB bTok s = false) : envSubF bTok eTok render fuel s = s := by
  cases fuel with
  | zero => rfl
  | succ f => simp [envSubF, findSplit_none_of_occursB_false _ _ h]

theorem occursB_false_all_drop (pat s : Str) (h : occursB pat s = false) :
    ∀ k, pat.isPrefixOf (s.drop k) = false := by
  induction s with
  | nil =>
    intro k
    simp only [occursB, List.isEmpty_iff] at h
    simp only [List.drop_nil]
    cases pat with
    | nil => simp at h
    | cons a l => rfl
  | cons c cs ih =>
    intro k
    have hc := occursB_cons_false h
    cases k with
    | zero => exact hc.1
    | succ k' => simpa using ih hc.2 k'

theorem prefix_split {pat x z : Str} (h : pat <+: x ++ z) (hlt : x.length < pat.length) :
    x <+: pat ∧ pat.drop x.length <+: z := by
  have hx : x <+: pat :=
    List.prefix_of_prefix_length_le (List.prefix_append _ _) h (Nat.le_of_lt hlt)
  obtain ⟨t, ht⟩ := hx
  have hdrop : pat.drop x.length = t := by rw [← ht, List.drop_left]
  refine ⟨⟨t, ht⟩, ?_⟩
  rw [hdrop]
  have := h
  rw [← ht, List.prefix_append_right_inj] at this
  exact this

theorem no_item_start (t z : Str) (hocc : occursB itemTok t = false)
    (hz : z.head? = some '\n') :
    ∀ k, k < t.length → itemTok.isPrefixOf ((t ++ z).drop k) = false := by
  intro k hk
  by_contra hcon
  rw [Bool.not_eq_false] at hcon
  rw [List.drop_append_eq_append_drop, Nat.sub_eq_zero_of_le (Nat.le_of_lt hk),
    List.drop_zero] at hcon
  have hpre := List.isPrefixOf_iff_prefix.mp hcon
  rcases le_or_lt itemTok.length (t.drop k).length with hle | hlt
  · have := prefix_localize hpre hle
    have hfalse := occursB_false_all_drop itemTok t hocc k
    rw [List.isPrefixOf_iff_prefix.mpr this] at hfalse
    exact absurd hfalse (by decide)
  · obtain ⟨-, hsuf⟩ := prefix_split hpre hlt
    have hu1 : 1 ≤ (t.drop k).length := by
      simp only [List.length_drop]
      omega
    have hu2 : (t.drop k).length < 5 := by
      have : itemTok.length = 5 := by decide
      omega
    cases hdu : itemTok.drop (t.drop k).length with
    | nil =>
      have hlen : (itemTok.drop (t.drop k).length).length = 0 := by rw [hdu]; rfl
      rw [List.length_drop] at hlen
      have hlen5 : itemTok.length = 5 := by decide
      rw [hlen5] at hlen
      omega
    | cons c rest =>
      rw [hdu] at hsuf
      have hzc : z.head? = some c := by
        cases z with
        | nil => exact absurd (List.prefix_nil.mp hsuf) (by simp)
        | cons zc zs =>
          rw [List.cons_prefix_cons] at hsuf
          simp [hsuf.1]
      rw [hz] at hzc
      have hc : c = '\n' := by simpa using hzc.symm
      subst hc
      have hhead : (itemTok.drop (t.drop k).length).head? = some '\n' := by
        rw [hdu]; rfl
      set u := (t.drop k).length with hu
      interval_cases u <;> exact absurd hhead (by decide)

theorem takeTextAux_walk (w z : Str) (hz : z ≠ [])
    (hno : ∀ k, k < w.length → itemTok.isPrefixOf ((w ++ z).drop k) = false) :
    takeTextAux (w ++ z) = (w ++ (takeTextAux z).1, (takeTextAux z).2) := by
  induction w with
  | nil => simp
  | cons a w' ih =>
    have h0 : itemTok.isPrefixOf (a :: (w' ++ z)) = false := by simpa using hno 0 (by simp)
    have hrec := ih (fun k hk => by simpa using hno (k + 1) (by simpa using Nat.succ_lt_succ hk))
    obtain ⟨d, cs, hdc⟩ : ∃ d cs, w' ++ z = d :: cs := by
      cases hx : w' ++ z with
      | nil =>
        rcases List.append_eq_nil.mp hx with ⟨-, h2⟩
        exact absurd h2 hz
      | cons d cs => exact ⟨d, cs, rfl⟩
    have key : takeTextAux (a :: (w' ++ z)) =
        (a :: (takeTextAux (w' ++ z)).1, (takeTextAux (w' ++ z)).2) := by
      rw [hdc]
      rw [hdc] at h0
      simp only [takeTextAux, h0]
      simp
    rw [show (a :: w') ++ z = a :: (w' ++ z) from rfl, key, hrec]
    simp

theorem textOK_parts (t : Str) (ht : textOK t = true) :
    t ≠ [] ∧ occursB itemTok t = false ∧ isPySpace t.headI = false ∧
      pyStrip (t ++ ['\n']) = t ∧ pyStrip t = t := by
  simp only [textOK, Bool.and_eq_true, Bool.not_eq_true', beq_iff_eq] at ht
  obtain ⟨⟨⟨⟨h1, h2⟩, h3⟩, h4⟩, h5⟩ := ht
  refine ⟨?_, h2, h3, h4, h5⟩
  intro hnil
  rw [hnil] at h1
  simp at h1

theorem ne_nil_isEmpty_false {t : Str} (h : t ≠ []) : t.isEmpty = false := by
  cases t with
  | nil => exact absurd rfl h
  | cons a l => rfl

theorem takeTextAux_nl_item (r : Str) :
    takeTextAux ('\n' :: (itemTok ++ r)) = (['\n'], itemTok ++ r) := by
  rw [show itemTok = ['\\', 'i', 't', 'e', 'm'] from rfl]
  show takeTextAux ('\n' :: '\\' :: 'i' :: 't' :: 'e' :: 'm' :: r) = _
  simp [takeTextAux, List.isPrefixOf]

theorem takeTextAux_nl : takeTextAux ['\n'] = ([], ['\n']) := rfl

theorem parseItemText_mid (t rest : Str) (ht : textOK t = true) :
    parseItemText (' ' :: (t ++ ('\n' :: (itemTok ++ rest)))) =
      some (t ++ ['\n'], itemTok ++ rest) := by
  obtain ⟨hne, hocc, hhead, -, -⟩ := textOK_parts t ht
  obtain ⟨c, cs, rfl⟩ := List.exists_cons_of_ne_nil hne
  have hheadc : isPySpace c = false := by simpa using hhead
  have hoccs : occursB itemTok cs = false := (occursB_cons_false hocc).2
  have hsp : isPySpace ' ' = true := by decide
  have hdrop : (' ' :: (c :: cs ++ ('\n' :: (itemTok ++ rest)))).dropWhile isPySpace
      = c :: (cs ++ ('\n' :: (itemTok ++ rest))) := by
    simp [List.dropWhile, hheadc, hsp]
  simp only [parseItemText, hdrop, List.isEmpty_cons, Bool.false_eq_true, if_false, takeText]
  rw [takeTextAux_walk cs ('\n' :: (itemTok ++ rest)) (by simp)
    (no_item_start cs _ hoccs rfl), takeTextAux_nl_item]
  simp

theorem parseItemText_last (t : Str) (ht : textOK t = true) :
    parseItemText (' ' :: (t ++ ['\n'])) = some (t, ['\n']) := by
  obtain ⟨hne, hocc, hhead, -, -⟩ := textOK_parts t ht
  obtain ⟨c, cs, rfl⟩ := List.exists_cons_of_ne_nil hne
  have hheadc : isPySpace c = false := by simpa using hhead
  have hoccs : occursB itemTok cs = false := (occursB_cons_false hocc).2
  have hsp : isPySpace ' ' = true := by decide
  have hdrop : (' ' :: (c :: cs ++ ['\n'])).dropWhile isPySpace
      = c :: (cs ++ ['\n']) := by
    simp [List.dropWhile, hheadc, hsp]
  simp only [parseItemText, hdrop, List.isEmpty_cons, Bool.false_eq_true, if_false, takeText]
  rw [takeTextAux_walk cs ['\n'] (by simp) (no_item_start cs _ hoccs rfl), takeTextAux_nl]
  simp

theorem parseLabel_nolabel (c : Char) (x : Str) (hc : c ≠ '[') :
    parseLabel (c :: x) = ([], c :: x) := by
  simp [parseLabel, hc]

theorem parseLabel_label (L z : Str) (hL : ']' ∉ L) :
    parseLabel ('[' :: (L ++ (']' :: z))) = (L, z) := by
  simp [parseLabel, findSplit_single ']' L z hL]

theorem findSplit_item_after (x y : Str) (hocc : occursB itemTok x = false) :
    findSplit itemTok (x ++ (itemTok ++ y)) = some (x, y) := by
  have h := findSplit_bsl "item".toList x y (by decide)
    (by rw [show ('\\' :: "item".toList) = itemTok from rfl]; exact hocc)
  rw [show ('\\' :: "item".toList) = itemTok from rfl] at h
  rwa [← List.append_assoc]

theorem findItemsF_step (f : Nat) (s pre rest lab rest2 txt rest3 : Str)
    (h1 : findSplit itemTok s = some (pre, rest))
    (h2 : parseLabel rest = (lab, rest2))
    (h3 : parseItemText rest2 = some (txt, rest3)) :
    findItemsF (f + 1) s = (lab, txt) :: findItemsF f rest3 := by
  simp only [findItemsF, h1, h2, h3]

theorem findItemsF_nl (f : Nat) : findItemsF f ['\n'] = [] := by
  cases f with
  | zero => rfl
  | succ g =>
    have h : findSplit itemTok ['\n'] = none := rfl
    simp [findItemsF, h]

theorem findItems_three (fuel : Nat) (t1 L t2 t3 : Str) (hf : 4 ≤ fuel)
    (ht1 : textOK t1 = true) (ht2 : textOK t2 = true) (ht3 : textOK t3 = true)
    (hLb : ']' ∉ L) :
    findItemsF fuel
      ('\n' :: (itemTok ++ (' ' :: (t1 ++ ('\n' :: (itemTok ++ ('[' :: (L ++ (']' :: (' ' :: (t2 ++ ('\n' :: (itemTok ++ (' ' :: (t3 ++ ['\n']))))))))))))))) =
      [([], t1 ++ ['\n']), (L, t2 ++ ['\n']), ([], t3)] := by
  obtain ⟨f, rfl⟩ := Nat.exists_eq_add_of_le' hf
  have h1 : findSplit itemTok ('\n' :: (itemTok ++ (' ' :: (t1 ++ ('\n' :: (itemTok ++ ('[' :: (L ++ (']' :: (' ' :: (t2 ++ ('\n' :: (itemTok ++ (' ' :: (t3 ++ ['\n']))))))))))))))) =
      some (['\n'], ' ' :: (t1 ++ ('\n' :: (itemTok ++ ('[' :: (L ++ (']' :: (' ' :: (t2 ++ ('\n' :: (itemTok ++ (' ' :: (t3 ++ ['\n']))))))))))))) :=
    findSplit_item_after ['\n'] _ (by decide)
  have hl1 := parseLabel_nolabel ' '
    (t1 ++ ('\n' :: (itemTok ++ ('[' :: (L ++ (']' :: (' ' :: (t2 ++ ('\n' :: (itemTok ++ (' ' :: (t3 ++ ['\n']))))))))))))
    (by decide)
  have hp1 := parseItemText_mid t1
    ('[' :: (L ++ (']' :: (' ' :: (t2 ++ ('\n' :: (itemTok ++ (' ' :: (t3 ++ ['\n'])))))))))
    ht1
  have e1 : findItemsF (f + 4)
      ('\n' :: (itemTok ++ (' ' :: (t1 ++ ('\n' :: (itemTok ++ ('[' :: (L ++ (']' :: (' ' :: (t2 ++ ('\n' :: (itemTok ++ (' ' :: (t3 ++ ['\n']))))))))))))))) =
      ([], t1 ++ ['\n']) :: findItemsF (f + 3)
        (itemTok ++ ('[' :: (L ++ (']' :: (' ' :: (t2 ++ ('\n' :: (itemTok ++ (' ' :: (t3 ++ ['\n'])))))))))) :=
    findItemsF_step (f + 3) _ _ _ _ _ _ _ h1 hl1 hp1
  have h2 : findSplit itemTok (itemTok ++ ('[' :: (L ++ (']' :: (' ' :: (t2 ++ ('\n' :: (itemTok ++ (' ' :: (t3 ++ ['\n'])))))))))) =
      some ([], '[' :: (L ++ (']' :: (' ' :: (t2 ++ ('\n' :: (itemTok ++ (' ' :: (t3 ++ ['\n']))))))))) :=
    findSplit_item_after [] _ (by decide)
  have hl2 := parseLabel_label L
    (' ' :: (t2 ++ ('\n' :: (itemTok ++ (' ' :: (t3 ++ ['\n'])))))) hLb
  have hp2 := parseItemText_mid t2 (' ' :: (t3 ++ ['\n'])) ht2
  have e2 : findItemsF (f + 3) (itemTok ++ ('[' :: (L ++ (']' :: (' ' :: (t2 ++ ('\n' :: (itemTok ++ (' ' :: (t3 ++ ['\n'])))))))))) =
      (L, t2 ++ ['\n']) :: findItemsF (f + 2) (itemTok ++ (' ' :: (t3 ++ ['\n']))) :=
    findItemsF_step (f + 2) _ _ _ _ _ _ _ h2 hl2 hp2
  have h3 : findSplit itemTok (itemTok ++ (' ' :: (t3 ++ ['\n']))) =
      some ([], ' ' :: (t3 ++ ['\n'])) :=
    findSplit_item_after [] _ (by decide)
  have hl3 := parseLabel_nolabel ' ' (t3 ++ ['\n']) (by decide)
  have hp3 := parseItemText_last t3 ht3
  have e3 : findItemsF (f + 2) (itemTok ++ (' ' :: (t3 ++ ['\n']))) =
      ([], t3) :: findItemsF (f + 1) ['\n'] :=
    findItemsF_step (f + 1) _ _ _ _ _ _ _ h3 hl3 hp3
  rw [e1, e2, e3, findItemsF_nl]

theorem renderEnum_three (t1 L t2 t3 : Str)
    (ht1 : textOK t1 = true) (ht2 : textOK t2 = true) (ht3 : textOK t3 = true)
    (hL : L ≠ []) :
    renderEnumItems 1 [([], t1 ++ ['\n']), (L, t2 ++ ['\n']), ([], t3)] =
      [toDec 1 ++ ". ".toList ++ t1,
       "- **".toList ++ L ++ "** ".toList ++ t2,
       toDec 2 ++ ". ".toList ++ t3] := by
  obtain ⟨hne1, -, -, hstrip1, -⟩ := textOK_parts t1 ht1
  obtain ⟨hne2, -, -, hstrip2, -⟩ := textOK_parts t2 ht2
  obtain ⟨hne3, -, -, -, hstrip3⟩ := textOK_parts t3 ht3
  have hie1 := ne_nil_isEmpty_false hne1
  have hie2 := ne_nil_isEmpty_false hne2
  have hie3 := ne_nil_isEmpty_false hne3
  have hieL := ne_nil_isEmpty_false hL
  simp [renderEnumItems, hstrip1, hstrip2, hstrip3, hie1, hie2, hie3, hieL]

theorem envSubF_one (bTok eTok : Str) (render : Str → Str) (fuel : Nat)
    (hf : 1 ≤ fuel) (s pre rest body rest2 : Str)
    (h1 : findSplit bTok s = some (pre, rest))
    (h2 : findSplit eTok rest = some (body, rest2))
    (h3 : occursB bTok rest2 = false) :
    envSubF bTok eTok render fuel s = pre ++ render body ++ rest2 := by
  obtain ⟨f, rfl⟩ := Nat.exists_eq_add_of_le' hf
  simp only [envSubF, h1, h2, envSubF_id _ _ _ _ _ h3]

theorem listsLoop_succ (i : Nat) (s : Str) :
    listsLoop (i + 1) s =
      if listsPassOnce s = s then s else listsLoop i (listsPassOnce s) := rfl

/-- C6: in an enumerate environment holding an unlabelled item, a labelled
item `\item[L]` and another unlabelled item, `convert_lists` renders the
labelled one as a bold-labelled bullet and numbers the unlabelled ones 1.
and 2., the ordinal counter skipping the labelled item. -/
theorem C6_enumerate_labels (t1 L t2 t3 : Str)
    (ht1 : textOK t1 = true) (ht2 : textOK t2 = true) (ht3 : textOK t3 = true)
    (hL : L ≠ []) (hLb : ']' ∉ L)
    (hbI : occursB beginItemizeTok (beginEnumTok ++ (('\n' :: (itemTok ++ (' ' :: (t1 ++ ('\n' :: (itemTok ++ ('[' :: (L ++ (']' :: (' ' :: (t2 ++ ('\n' :: (itemTok ++ (' ' :: (t3 ++ ['\n']))))))))))))))) ++ endEnumTok)) = false)
    (hEnd : occursB endEnumTok ('\n' :: (itemTok ++ (' ' :: (t1 ++ ('\n' :: (itemTok ++ ('[' :: (L ++ (']' :: (' ' :: (t2 ++ ('\n' :: (itemTok ++ (' ' :: (t3 ++ ['\n']))))))))))))))) = false)
    (hO1 : occursB beginItemizeTok (wrapItems ["1. ".toList ++ t1,
      "- **".toList ++ L ++ "** ".toList ++ t2,
      "2. ".toList ++ t3]) = false)
    (hO2 : occursB beginEnumTok (wrapItems ["1. ".toList ++ t1,
      "- **".toList ++ L ++ "** ".toList ++ t2,
      "2. ".toList ++ t3]) = false)
    (hO3 : occursB endItemizeTok (wrapItems ["1. ".toList ++ t1,
      "- **".toList ++ L ++ "** ".toList ++ t2,
      "2. ".toList ++ t3]) = false)
    (hO4 : occursB endEnumTok (wrapItems ["1. ".toList ++ t1,
      "- **".toList ++ L ++ "** ".toList ++ t2,
      "2. ".toList ++ t3]) = false) :
    convert_lists (beginEnumTok ++ (('\n' :: (itemTok ++ (' ' :: (t1 ++ ('\n' :: (itemTok ++ ('[' :: (L ++ (']' :: (' ' :: (t2 ++ ('\n' :: (itemTok ++ (' ' :: (t3 ++ ['\n']))))))))))))))) ++ endEnumTok)) = wrapItems ["1. ".toList ++ t1,
      "- **".toList ++ L ++ "** ".toList ++ t2,
      "2. ".toList ++ t3] := by
  have hlen : 4 ≤ ('\n' :: (itemTok ++ (' ' :: (t1 ++ ('\n' :: (itemTok ++ ('[' :: (L ++ (']' :: (' ' :: (t2 ++ ('\n' :: (itemTok ++ (' ' :: (t3 ++ ['\n']))))))))))))))).length := by
    simp only [List.length_cons, List.length_append]
    omega
  have hitems := findItems_three ('\n' :: (itemTok ++ (' ' :: (t1 ++ ('\n' :: (itemTok ++ ('[' :: (L ++ (']' :: (' ' :: (t2 ++ ('\n' :: (itemTok ++ (' ' :: (t3 ++ ['\n']))))))))))))))).length t1 L t2 t3 hlen ht1 ht2 ht3 hLb
  have hrender := renderEnum_three t1 L t2 t3 ht1 ht2 ht3 hL
  have hceb : convert_enumerate_body ('\n' :: (itemTok ++ (' ' :: (t1 ++ ('\n' :: (itemTok ++ ('[' :: (L ++ (']' :: (' ' :: (t2 ++ ('\n' :: (itemTok ++ (' ' :: (t3 ++ ['\n']))))))))))))))) = wrapItems ["1. ".toList ++ t1,
      "- **".toList ++ L ++ "** ".toList ++ t2,
      "2. ".toList ++ t3] := by
    simp only [convert_enumerate_body, hitems, hrender]
    rw [show toDec 1 ++ ". ".toList = "1. ".toList from by decide,
      show toDec 2 ++ ". ".toList = "2. ".toList from by decide]
  have hdi : itemizeSub (beginEnumTok ++ (('\n' :: (itemTok ++ (' ' :: (t1 ++ ('\n' :: (itemTok ++ ('[' :: (L ++ (']' :: (' ' :: (t2 ++ ('\n' :: (itemTok ++ (' ' :: (t3 ++ ['\n']))))))))))))))) ++ endEnumTok)) = beginEnumTok ++ (('\n' :: (itemTok ++ (' ' :: (t1 ++ ('\n' :: (itemTok ++ ('[' :: (L ++ (']' :: (' ' :: (t2 ++ ('\n' :: (itemTok ++ (' ' :: (t3 ++ ['\n']))))))))))))))) ++ endEnumTok) := by
    simp only [itemizeSub]
    exact envSubF_id _ _ _ _ _ hbI
  have h1 : findSplit beginEnumTok (beginEnumTok ++ (('\n' :: (itemTok ++ (' ' :: (t1 ++ ('\n' :: (itemTok ++ ('[' :: (L ++ (']' :: (' ' :: (t2 ++ ('\n' :: (itemTok ++ (' ' :: (t3 ++ ['\n']))))))))))))))) ++ endEnumTok)) =
      some ([], ('\n' :: (itemTok ++ (' ' :: (t1 ++ ('\n' :: (itemTok ++ ('[' :: (L ++ (']' :: (' ' :: (t2 ++ ('\n' :: (itemTok ++ (' ' :: (t3 ++ ['\n']))))))))))))))) ++ endEnumTok) := by
    rw [findSplit_of_isPrefixOf _ _ (by decide)
      (List.isPrefixOf_iff_prefix.mpr (List.prefix_append _ _))]
    rw [List.drop_left]
  have h2 : findSplit endEnumTok (('\n' :: (itemTok ++ (' ' :: (t1 ++ ('\n' :: (itemTok ++ ('[' :: (L ++ (']' :: (' ' :: (t2 ++ ('\n' :: (itemTok ++ (' ' :: (t3 ++ ['\n']))))))))))))))) ++ endEnumTok) =
      some (('\n' :: (itemTok ++ (' ' :: (t1 ++ ('\n' :: (itemTok ++ ('[' :: (L ++ (']' :: (' ' :: (t2 ++ ('\n' :: (itemTok ++ (' ' :: (t3 ++ ['\n']))))))))))))))), []) := by
    have h := findSplit_bsl "end{enumerate}".toList ('\n' :: (itemTok ++ (' ' :: (t1 ++ ('\n' :: (itemTok ++ ('[' :: (L ++ (']' :: (' ' :: (t2 ++ ('\n' :: (itemTok ++ (' ' :: (t3 ++ ['\n']))))))))))))))) [] (by decide)
      (by rw [show ('\\' :: "end{enumerate}".toList) = endEnumTok from rfl]; exact hEnd)
    rw [show ('\\' :: "end{enumerate}".toList) = endEnumTok from rfl] at h
    simpa using h
  have hlenD : 1 ≤ (beginEnumTok ++ (('\n' :: (itemTok ++ (' ' :: (t1 ++ ('\n' :: (itemTok ++ ('[' :: (L ++ (']' :: (' ' :: (t2 ++ ('\n' :: (itemTok ++ (' ' :: (t3 ++ ['\n']))))))))))))))) ++ endEnumTok)).length := by
    rw [List.length_append]
    have hbe : beginEnumTok.length = 17 := by decide
    omega
  have hde : enumSub (beginEnumTok ++ (('\n' :: (itemTok ++ (' ' :: (t1 ++ ('\n' :: (itemTok ++ ('[' :: (L ++ (']' :: (' ' :: (t2 ++ ('\n' :: (itemTok ++ (' ' :: (t3 ++ ['\n']))))))))))))))) ++ endEnumTok)) = wrapItems ["1. ".toList ++ t1,
      "- **".toList ++ L ++ "** ".toList ++ t2,
      "2. ".toList ++ t3] := by
    simp only [enumSub]
    rw [envSubF_one _ _ _ _ hlenD _ _ _ _ _ h1 h2 (by decide), hceb]
    simp only [List.nil_append, List.append_nil]
  have hpass1 : listsPassOnce (beginEnumTok ++ (('\n' :: (itemTok ++ (' ' :: (t1 ++ ('\n' :: (itemTok ++ ('[' :: (L ++ (']' :: (' ' :: (t2 ++ ('\n' :: (itemTok ++ (' ' :: (t3 ++ ['\n']))))))))))))))) ++ endEnumTok)) = wrapItems ["1. ".toList ++ t1,
      "- **".toList ++ L ++ "** ".toList ++ t2,
      "2. ".toList ++ t3] := by
    simp only [listsPassOnce]
    rw [hdi, hde]
  have hiOut : itemizeSub (wrapItems ["1. ".toList ++ t1,
      "- **".toList ++ L ++ "** ".toList ++ t2,
      "2. ".toList ++ t3]) = wrapItems ["1. ".toList ++ t1,
      "- **".toList ++ L ++ "** ".toList ++ t2,
      "2. ".toList ++ t3] := by
    simp only [itemizeSub]
    exact envSubF_id _ _ _ _ _ hO1
  have heOut : enumSub (wrapItems ["1. ".toList ++ t1,
      "- **".toList ++ L ++ "** ".toList ++ t2,
      "2. ".toList ++ t3]) = wrapItems ["1. ".toList ++ t1,
      "- **".toList ++ L ++ "** ".toList ++ t2,
      "2. ".toList ++ t3] := by
    simp only [enumSub]
    exact envSubF_id _ _ _ _ _ hO2
  have hpassOut : listsPassOnce (wrapItems ["1. ".toList ++ t1,
      "- **".toList ++ L ++ "** ".toList ++ t2,
      "2. ".toList ++ t3]) = wrapItems ["1. ".toList ++ t1,
      "- **".toList ++ L ++ "** ".toList ++ t2,
      "2. ".toList ++ t3] := by
    simp only [listsPassOnce]
    rw [hiOut, heOut]
  have hneq : (wrapItems ["1. ".toList ++ t1,
      "- **".toList ++ L ++ "** ".toList ++ t2,
      "2. ".toList ++ t3]) ≠ beginEnumTok ++ (('\n' :: (itemTok ++ (' ' :: (t1 ++ ('\n' :: (itemTok ++ ('[' :: (L ++ (']' :: (' ' :: (t2 ++ ('\n' :: (itemTok ++ (' ' :: (t3 ++ ['\n']))))))))))))))) ++ endEnumTok) := by
    intro h
    have hh := congrArg List.head? h
    rw [show (wrapItems ["1. ".toList ++ t1,
      "- **".toList ++ L ++ "** ".toList ++ t2,
      "2. ".toList ++ t3]).head? = some '\n' from rfl] at hh
    rw [show (beginEnumTok ++ (('\n' :: (itemTok ++ (' ' :: (t1 ++ ('\n' :: (itemTok ++ ('[' :: (L ++ (']' :: (' ' :: (t2 ++ ('\n' :: (itemTok ++ (' ' :: (t3 ++ ['\n']))))))))))))))) ++ endEnumTok)).head? = some '\\' from rfl] at hh
    exact absurd hh (by decide)
  have hloop : listsLoop 10 (beginEnumTok ++ (('\n' :: (itemTok ++ (' ' :: (t1 ++ ('\n' :: (itemTok ++ ('[' :: (L ++ (']' :: (' ' :: (t2 ++ ('\n' :: (itemTok ++ (' ' :: (t3 ++ ['\n']))))))))))))))) ++ endEnumTok)) = wrapItems ["1. ".toList ++ t1,
      "- **".toList ++ L ++ "** ".toList ++ t2,
      "2. ".toList ++ t3] := by
    show listsLoop (9 + 1) (beginEnumTok ++ (('\n' :: (itemTok ++ (' ' :: (t1 ++ ('\n' :: (itemTok ++ ('[' :: (L ++ (']' :: (' ' :: (t2 ++ ('\n' :: (itemTok ++ (' ' :: (t3 ++ ['\n']))))))))))))))) ++ endEnumTok)) = wrapItems ["1. ".toList ++ t1,
      "- **".toList ++ L ++ "** ".toList ++ t2,
      "2. ".toList ++ t3]
    rw [listsLoop_succ, hpass1, if_neg hneq]
    show listsLoop (8 + 1) (wrapItems ["1. ".toList ++ t1,
      "- **".toList ++ L ++ "** ".toList ++ t2,
      "2. ".toList ++ t3]) = wrapItems ["1. ".toList ++ t1,
      "- **".toList ++ L ++ "** ".toList ++ t2,
      "2. ".toList ++ t3]
    rw [listsLoop_succ, hpassOut, if_pos rfl]
  show cleanupListTags (listsLoop 10 (beginEnumTok ++ (('\n' :: (itemTok ++ (' ' :: (t1 ++ ('\n' :: (itemTok ++ ('[' :: (L ++ (']' :: (' ' :: (t2 ++ ('\n' :: (itemTok ++ (' ' :: (t3 ++ ['\n']))))))))))))))) ++ endEnumTok))) = wrapItems ["1. ".toList ++ t1,
      "- **".toList ++ L ++ "** ".toList ++ t2,
      "2. ".toList ++ t3]
  rw [hloop]
  simp only [cleanupListTags]
  rw [replaceAll_id _ _ _ hO3, replaceAll_id _ _ _ hO4,
    replaceAll_id _ _ _ hO1, replaceAll_id _ _ _ hO2]

theorem C6_enumerate_labels_witness :
    textOK "alpha".toList = true ∧ "Note".toList ≠ ([] : Str) ∧
    convert_lists (beginEnumTok ++ (('\n' :: (itemTok ++ (' ' :: ("alpha".toList ++ ('\n' :: (itemTok ++ ('[' :: ("Note".toList ++ (']' :: (' ' :: ("beta".toList ++ ('\n' :: (itemTok ++ (' ' :: ("gamma".toList ++ ['\n']))))))))))))))) ++ endEnumTok)) = wrapItems ["1. ".toList ++ "alpha".toList,
      "- **".toList ++ "Note".toList ++ "** ".toList ++ "beta".toList,
      "2. ".toList ++ "gamma".toList] :=
  ⟨by decide, by decide,
    C6_enumerate_labels "alpha".toList "Note".toList "beta".toList "gamma".toList
      (by decide) (by decide) (by decide) (by decide) (by decide) (by decide)
      (by decide) (by decide) (by decide) (by decide) (by decide)⟩

/-- C10: the bounded loops stay within their guards and stop early: the
list-rewrite loop runs at most its iteration budget of passes and returns
immediately on an unchanged pass, the box converter returns the content
unchanged once its depth guard is exhausted, and a box pass that converts
nothing ends the recursion with its own output. -/
theorem C10_bounded_loops :
    (∀ (n : Nat) (s : Str), listsLoopCount n s ≤ n) ∧
    (∀ (n : Nat) (s : Str), listsPassOnce s = s → listsLoop n s = s) ∧
    (∀ (s : Str), boxConvert 0 s = s) ∧
    (∀ (d : Nat) (s r : Str), boxPassF (boxConvert d) s.length s = (r, false) →
      boxConvert (d + 1) s = r) := by
  refine ⟨?_, ?_, ?_, ?_⟩
  · intro n
    induction n with
    | zero => intro s; simp [listsLoopCount]
    | succ m ih =>
      intro s
      simp only [listsLoopCount]
      by_cases h : listsPassOnce s = s
      · rw [if_pos h]
        omega
      · rw [if_neg h]
        have := ih (listsPassOnce s)
        omega
  · intro n s h
    cases n with
    | zero => rfl
    | succ m => rw [listsLoop_succ, if_pos h]
  · intro s
    rfl
  · intro d s r h
    simp only [boxConvert, h]
    simp

theorem C10_bounded_loops_witness :
    listsLoopCount 10 "x".toList ≤ 10 ∧
    (listsPassOnce [] = ([] : Str) ∧ listsLoop 10 [] = ([] : Str)) ∧
    boxConvert 0 "a".toList = "a".toList ∧
    (boxPassF (boxConvert 0) ("b".toList).length "b".toList = ("b".toList, false) ∧
      boxConvert 1 "b".toList = "b".toList) :=
  ⟨C10_bounded_loops.1 10 "x".toList,
    ⟨by decide, C10_bounded_loops.2.1 10 [] (by decide)⟩,
    C10_bounded_loops.2.2.1 "a".toList,
    ⟨by decide, C10_bounded_loops.2.2.2 0 "b".toList "b".toList (by decide)⟩⟩

theorem prevAfter_cons (p : Option Char) (c : Char) (t : Str) :
    prevAfter p (c :: t) = prevAfter (some c) t := by
  cases t with
  | nil => rfl
  | cons d ts =>
    simp only [prevAfter, List.getLast?_cons_cons]
    rw [List.getLast?_eq_getLast (d :: ts) (by simp)]

theorem dPassF_nil (fuel : Nat) (prev : Option Char) (k : Nat) :
    dPassF fuel prev k [] = ([], []) := by
  cases fuel <;> rfl

theorem iPassF_nil (fuel : Nat) (prev : Option Char) (k : Nat) :
    iPassF fuel prev k [] = ([], []) := by
  cases fuel <;> rfl

theorem dPassF_fuel : ∀ (f1 : Nat) (s : Str) (prev : Option Char) (k f2 : Nat),
    s.length ≤ f1 → s.length ≤ f2 → dPassF f1 prev k s = dPassF f2 prev k s := by
  intro f1
  induction f1 with
  | zero =>
    intro s prev k f2 h1 _
    rw [List.length_eq_zero.mp (Nat.le_zero.mp h1)]
    rw [dPassF_nil, dPassF_nil]
  | succ g ih =>
    intro s prev k f2 h1 h2
    cases s with
    | nil => rw [dPassF_nil, dPassF_nil]
    | cons c cs =>
      obtain ⟨g2, rfl⟩ : ∃ g2, f2 = g2 + 1 := by
        cases f2 with
        | zero => simp at h2
        | succ g2 => exact ⟨g2, rfl⟩
      simp only [List.length_cons] at h1 h2
      by_cases hop : dOpens prev c cs
      · simp only [dPassF, if_pos hop]
        cases hclose : displayClose cs.tail with
        | none =>
          simp only [ih cs (some c) k g2 (by omega) (by omega)]
        | some p =>
          obtain ⟨g1', g2', rest⟩ := p
          have hrl := displayClose_length cs.tail g1' g2' rest hclose
          have htl : cs.tail.length ≤ cs.length := by
            rw [List.length_tail]
            omega
          simp only [ih rest (some '$') (k + 1) g2 (by omega) (by omega)]
      · simp only [dPassF, if_neg hop]
        simp only [ih cs (some c) k g2 (by omega) (by omega)]

theorem iPassF_fuel : ∀ (f1 : Nat) (s : Str) (prev : Option Char) (k f2 : Nat),
    s.length ≤ f1 → s.length ≤ f2 → iPassF f1 prev k s = iPassF f2 prev k s := by
  intro f1
  induction f1 with
  | zero =>
    intro s prev k f2 h1 _
    rw [List.length_eq_zero.mp (Nat.le_zero.mp h1)]
    rw [iPassF_nil, iPassF_nil]
  | succ g ih =>
    intro s prev k f2 h1 h2
    cases s with
    | nil => rw [iPassF_nil, iPassF_nil]
    | cons c cs =>
      obtain ⟨g2, rfl⟩ : ∃ g2, f2 = g2 + 1 := by
        cases f2 with
        | zero => simp at h2
        | succ g2 => exact ⟨g2, rfl⟩
      simp only [List.length_cons] at h1 h2
      by_cases hop : iOpens prev c cs
      · simp only [iPassF, if_pos hop]
        cases hclose : inlineClose '$' cs with
        | none =>
          simp only [ih cs (some c) k g2 (by omega) (by omega)]
        | some p =>
          obtain ⟨g1', rest⟩ := p
          have hrl := inlineClose_length cs '$' g1' rest hclose
          simp only [ih rest (some '$') (k + 1) g2 (by omega) (by omega)]
      · simp only [iPassF, if_neg hop]
        simp only [ih cs (some c) k g2 (by omega) (by omega)]

theorem dPassF_walk (t : Str) (ht : t.all (fun c => c != '$') = true) :
    ∀ (fuel : Nat) (prev : Option Char) (k : Nat) (rest : Str),
    t.length + rest.length ≤ fuel →
    dPassF fuel prev k (t ++ rest) =
      (t ++ (dPassF rest.length (prevAfter prev t) k rest).1,
       (dPassF rest.length (prevAfter prev t) k rest).2) := by
  induction t with
  | nil =>
    intro fuel prev k rest h
    simp only [List.nil_append, List.length_nil, Nat.zero_add] at *
    rw [dPassF_fuel fuel rest prev k rest.length h (Nat.le_refl _)]
    rfl
  | cons c t' ih =>
    intro fuel prev k rest h
    have hparts := ht
    simp only [List.all_cons, Bool.and_eq_true] at hparts
    have hc : c ≠ '$' := by simpa using hparts.1
    obtain ⟨f, rfl⟩ : ∃ f, fuel = f + 1 := by
      cases fuel with
      | zero => simp [List.length_cons] at h
      | succ f => exact ⟨f, rfl⟩
    simp only [List.cons_append, dPassF, List.append_eq]
    rw [if_neg (fun hop => hc hop.1)]
    have hrec := ih hparts.2 f (some c) k rest
      (by simp only [List.length_cons] at h; omega)
    rw [hrec, prevAfter_cons]

theorem iPassF_walk (t : Str) (ht : t.all (fun c => c != '$') = true) :
    ∀ (fuel : Nat) (prev : Option Char) (k : Nat) (rest : Str),
    t.length + rest.length ≤ fuel →
    iPassF fuel prev k (t ++ rest) =
      (t ++ (iPassF rest.length (prevAfter prev t) k rest).1,
       (iPassF rest.length (prevAfter prev t) k rest).2) := by
  induction t with
  | nil =>
    intro fuel prev k rest h
    simp only [List.nil_append, List.length_nil, Nat.zero_add] at *
    rw [iPassF_fuel fuel rest prev k rest.length h (Nat.le_refl _)]
    rfl
  | cons c t' ih =>
    intro fuel prev k rest h
    have hparts := ht
    simp only [List.all_cons, Bool.and_eq_true] at hparts
    have hc : c ≠ '$' := by simpa using hparts.1
    obtain ⟨f, rfl⟩ : ∃ f, fuel = f + 1 := by
      cases fuel with
      | zero => simp [List.length_cons] at h
      | succ f => exact ⟨f, rfl⟩
    simp only [List.cons_append, iPassF, List.append_eq]
    rw [if_neg (fun hop => hc hop.1)]
    have hrec := ih hparts.2 f (some c) k rest
      (by simp only [List.length_cons] at h; omega)
    rw [hrec, prevAfter_cons]

theorem displayClose_through : ∀ (b : Str), b.all (fun c => c != '$') = true →
    ∀ (rest : Str),
    ∃ g1 g2, displayClose (b ++ ('$' :: '$' :: rest)) = some (g1, g2, rest) ∧
      g1 ++ g2 = b := by
  intro b
  induction b with
  | nil =>
    intro _ rest
    refine ⟨[], [], ?_, rfl⟩
    simp only [List.nil_append, displayClose]
    rw [if_neg (by simp [List.isPrefixOf]), if_pos (by simp [List.isPrefixOf])]
    rfl
  | cons c b' ih =>
    intro hall rest
    have hparts := hall
    simp only [List.all_cons, Bool.and_eq_true] at hparts
    have hc : c ≠ '$' := by simpa using hparts.1
    by_cases h1 : ['\\', '\\', '$', '$'].isPrefixOf (c :: (b' ++ '$' :: '$' :: rest)) = true
    · have h1p := List.isPrefixOf_iff_prefix.mp h1
      rw [List.cons_prefix_cons] at h1p
      obtain ⟨hcbs, h1q⟩ := h1p
      cases b' with
      | nil =>
        rw [List.nil_append, List.cons_prefix_cons] at h1q
        exact absurd h1q.1.symm (by decide)
      | cons d b2 =>
        rw [List.cons_append, List.cons_prefix_cons] at h1q
        obtain ⟨hd, h1r⟩ := h1q
        cases b2 with
        | cons e b3 =>
          rw [List.cons_append, List.cons_prefix_cons] at h1r
          have he : e ≠ '$' := by
            have h5 := hparts.2
            simp only [List.all_cons, Bool.and_eq_true] at h5
            simpa using h5.2.1
          exact absurd h1r.1.symm he
        | nil =>
          subst hcbs hd
          refine ⟨[], ['\\', '\\'], ?_, rfl⟩
          simp only [List.cons_append, List.nil_append, displayClose]
          rw [if_pos (by simp [List.isPrefixOf])]
          rfl
    · by_cases h2 : ['$', '$'].isPrefixOf (c :: (b' ++ '$' :: '$' :: rest)) = true
      · have h2p := List.isPrefixOf_iff_prefix.mp h2
        rw [List.cons_prefix_cons] at h2p
        exact absurd h2p.1.symm hc
      · obtain ⟨g1, g2, hrec, hsum⟩ := ih hparts.2 rest
        refine ⟨c :: g1, g2, ?_, by rw [List.cons_append, hsum]⟩
        simp only [List.cons_append, displayClose, List.append_eq]
        rw [if_neg h1, if_neg h2, hrec]
        rfl

theorem inlineClose_through : ∀ (b : Str), b.all (fun c => c != '$') = true →
    ∀ (rest : Str), rest.head? ≠ some '$' →
    ∀ (prev : Char),
    (match b.getLast? with | some x => x ≠ '\\' | none => prev ≠ '\\') →
    inlineClose prev (b ++ ('$' :: rest)) = some (b, rest) := by
  intro b
  induction b with
  | nil =>
    intro _ rest hrest prev hl
    simp only [List.nil_append, inlineClose]
    rw [if_pos ⟨trivial, hl, hrest⟩]
  | cons c b' ih =>
    intro hall rest hrest prev hl
    have hparts := hall
    simp only [List.all_cons, Bool.and_eq_true] at hparts
    have hc : c ≠ '$' := by simpa using hparts.1
    simp only [List.cons_append, inlineClose, List.append_eq]
    rw [if_neg (fun hcond => hc hcond.1)]
    have hl2 : (match b'.getLast? with | some x => x ≠ '\\' | none => c ≠ '\\') := by
      cases hb : b'.getLast? with
      | none =>
        have hbnil : b' = [] := by
          cases b' with
          | nil => rfl
          | cons d ts =>
            rw [List.getLast?_eq_getLast (d :: ts) (by simp)] at hb
            exact absurd hb (by simp)
        subst hbnil
        exact hl
      | some e =>
        have hb2 : (c :: b').getLast? = some e := by
          cases b' with
          | nil => simp at hb
          | cons d ts =>
            rw [List.getLast?_cons_cons]
            exact hb
        rw [hb2] at hl
        exact hl
    rw [ih hparts.2 rest hrest c hl2]
    rfl

theorem placeholder_eq (i : Nat) :
    placeholder i = '_' :: '_' :: (pmTok ++ (toDec i ++ ['_', '_'])) := rfl

theorem placeholder_all_ne (i : Nat) :
    (placeholder i).all (fun c => c != '$') = true := by
  rw [placeholder]
  simp only [List.all_append, Bool.and_eq_true]
  refine ⟨⟨by decide, ?_⟩, by decide⟩
  rw [List.all_eq_true]
  intro c hc
  have hd := toDec_digit i c hc
  simp only [bne_iff_ne, ne_eq]
  intro hcon
  rw [hcon] at hd
  exact absurd hd (by decide)

theorem getLast?_append_right (u v : Str) (hv : v ≠ []) :
    (u ++ v).getLast? = v.getLast? := by
  induction u with
  | nil => rfl
  | cons a u' ih =>
    obtain ⟨b, l, hbl⟩ : ∃ b l, u' ++ v = b :: l := by
      cases h : u' ++ v with
      | nil =>
        rcases List.append_eq_nil.mp h with ⟨-, h2⟩
        exact absurd h2 hv
      | cons b l => exact ⟨b, l, rfl⟩
    rw [List.cons_append, hbl, List.getLast?_cons_cons, ← hbl, ih]

theorem placeholder_getLast (i : Nat) : (placeholder i).getLast? = some '_' := by
  rw [placeholder, getLast?_append_right _ _ (by simp)]
  rfl

theorem txtOK_parts (t : Str) (h : pieceOK (.txt t) = true) :
    t ≠ [] ∧ t.all (fun c => c != '$') = true ∧ t.getLast? ≠ some '\\' := by
  simp only [pieceOK, Bool.and_eq_true, Bool.not_eq_true', bne_iff_ne, ne_eq] at h
  refine ⟨?_, h.1.2, h.2⟩
  intro hnil
  rw [hnil] at h
  simp at h

theorem inlOK_parts (b : Str) (h : pieceOK (.inl b) = true) :
    b ≠ [] ∧ b.all (fun c => c != '$') = true ∧ b.getLast? ≠ some '\\' := by
  simp only [pieceOK, Bool.and_eq_true, Bool.not_eq_true', bne_iff_ne, ne_eq] at h
  refine ⟨?_, h.1.2, h.2⟩
  intro hnil
  rw [hnil] at h
  simp at h

theorem prevAfter_ne_bslash (prev : Option Char) (t : Str)
    (hprev : prev ≠ some '\\') (hlast : t.getLast? ≠ some '\\') :
    prevAfter prev t ≠ some '\\' := by
  cases ht : t.getLast? with
  | none =>
    have h2 : prevAfter prev t = prev := by simp only [prevAfter, ht]
    rw [h2]
    exact hprev
  | some c =>
    have h2 : prevAfter prev t = some c := by simp only [prevAfter, ht]
    rw [h2]
    intro hcon
    apply hlast
    rw [ht, hcon]

theorem flat_head_ne_dollar (b : Str) (ps : List MPiece)
    (hadj : adjOK (.inl b) ps.head? = true) (hwf : wfPieces ps = true) :
    (flatPieces ps).head? ≠ some '$' := by
  cases ps with
  | nil => simp [flatPieces]
  | cons q ps' =>
    cases q with
    | txt t =>
      have hq : pieceOK (.txt t) = true := by
        simp only [wfPieces, Bool.and_eq_true] at hwf
        exact hwf.1.1
      obtain ⟨hne, hall, -⟩ := txtOK_parts t hq
      obtain ⟨c, t', rfl⟩ := List.exists_cons_of_ne_nil hne
      have hc : c ≠ '$' := by
        simp only [List.all_cons, Bool.and_eq_true] at hall
        simpa using hall.1
      simp only [flatPieces, pieceFlat, List.cons_append, List.head?_cons]
      simpa using hc
    | disp bb => simp [adjOK] at hadj
    | inl bb => simp [adjOK] at hadj

theorem dGuard_head_ne_dollar (b : Str) (k : Nat) (ps : List MPiece)
    (hadj : adjOK (.inl b) ps.head? = true) (hwf : wfPieces ps = true) :
    (dGuard k ps).head? ≠ some '$' := by
  cases ps with
  | nil => simp [dGuard]
  | cons q ps' =>
    cases q with
    | txt t =>
      have hq : pieceOK (.txt t) = true := by
        simp only [wfPieces, Bool.and_eq_true] at hwf
        exact hwf.1.1
      obtain ⟨hne, hall, -⟩ := txtOK_parts t hq
      obtain ⟨c, t', rfl⟩ := List.exists_cons_of_ne_nil hne
      have hc : c ≠ '$' := by
        simp only [List.all_cons, Bool.and_eq_true] at hall
        simpa using hall.1
      simp only [dGuard, List.cons_append, List.head?_cons]
      simpa using hc
    | disp bb => simp [adjOK] at hadj
    | inl bb => simp [adjOK] at hadj

theorem dPass_chars : ∀ (L : List MPiece), wfPieces L = true →
    ∀ (k : Nat) (prev : Option Char), prev ≠ some '\\' →
    dPassF (flatPieces L).length prev k (flatPieces L) = (dGuard k L, dBlocks L) := by
  intro L
  induction L with
  | nil => intro _ k prev _; rfl
  | cons p ps ih =>
    intro hwf k prev hprev
    have hwfc := hwf
    simp only [wfPieces, Bool.and_eq_true] at hwfc
    obtain ⟨⟨hpOK, hadj⟩, hwfs⟩ := hwfc
    cases p with
    | txt t =>
      obtain ⟨hne, hall, hlast⟩ := txtOK_parts t hpOK
      simp only [flatPieces, pieceFlat]
      rw [dPassF_walk t hall _ prev k (flatPieces ps) (by rw [List.length_append])]
      rw [ih hwfs k (prevAfter prev t) (prevAfter_ne_bslash prev t hprev hlast)]
      rfl
    | disp b =>
      have hball : b.all (fun c => c != '$') = true := by
        simpa [pieceOK] using hpOK
      simp only [flatPieces, pieceFlat]
      have hshape : ('$' :: '$' :: (b ++ ['$', '$'])) ++ flatPieces ps =
          '$' :: '$' :: (b ++ ('$' :: '$' :: flatPieces ps)) := by
        simp
      rw [hshape, List.length_cons]
      simp only [dPassF]
      rw [if_pos ⟨rfl, rfl, hprev⟩]
      obtain ⟨g1, g2, hdc, hsum⟩ := displayClose_through b hball (flatPieces ps)
      simp only [List.tail_cons, hdc]
      rw [dPassF_fuel _ (flatPieces ps) (some '$') (k + 1) (flatPieces ps).length
        (by simp only [List.length_cons, List.length_append]; omega) (Nat.le_refl _)]
      rw [ih hwfs (k + 1) (some '$') (by simp)]
      simp only [dGuard, dBlocks]
      rw [show g1 ++ g2 ++ ['$', '$'] = (g1 ++ g2) ++ ['$', '$'] from rfl, hsum]
    | inl b =>
      obtain ⟨hbne, hball, hblast⟩ := inlOK_parts b hpOK
      simp only [flatPieces, pieceFlat]
      have hshape : ('$' :: (b ++ ['$'])) ++ flatPieces ps =
          '$' :: (b ++ ('$' :: flatPieces ps)) := by
        simp
      rw [hshape, List.length_cons]
      simp only [dPassF]
      rw [if_neg ?hno]
      case hno =>
        intro hop
        obtain ⟨c, b', rfl⟩ := List.exists_cons_of_ne_nil hbne
        have hc : c ≠ '$' := by
          simp only [List.all_cons, Bool.and_eq_true] at hball
          simpa using hball.1
        obtain ⟨-, h2, -⟩ := hop
        rw [List.cons_append, List.head?_cons] at h2
        exact hc (by simpa using h2)
      rw [dPassF_walk b hball _ (some '$') k ('$' :: flatPieces ps)
        (by rw [List.length_append])]
      rw [List.length_cons]
      simp only [dPassF]
      rw [if_neg ?hno2]
      case hno2 =>
        intro hop
        obtain ⟨-, h2, -⟩ := hop
        exact flat_head_ne_dollar b ps hadj hwfs h2
      rw [ih hwfs k (some '$') (by simp)]
      rfl

theorem iPass_chars : ∀ (L : List MPiece), wfPieces L = true →
    ∀ (k j : Nat) (prev : Option Char), prev ≠ some '\\' →
    iPassF (dGuard k L).length prev j (dGuard k L) = (fullGuard k j L, iBlocks L) := by
  intro L
  induction L with
  | nil => intro _ k j prev _; rfl
  | cons p ps ih =>
    intro hwf k j prev hprev
    have hwfc := hwf
    simp only [wfPieces, Bool.and_eq_true] at hwfc
    obtain ⟨⟨hpOK, hadj⟩, hwfs⟩ := hwfc
    cases p with
    | txt t =>
      obtain ⟨hne, hall, hlast⟩ := txtOK_parts t hpOK
      simp only [dGuard]
      rw [iPassF_walk t hall _ prev j (dGuard k ps) (by rw [List.length_append])]
      rw [ih hwfs k j (prevAfter prev t) (prevAfter_ne_bslash prev t hprev hlast)]
      rfl
    | disp b =>
      simp only [dGuard]
      rw [iPassF_walk (placeholder k) (placeholder_all_ne k) _ prev j (dGuard (k + 1) ps)
        (by rw [List.length_append])]
      have hpa : prevAfter prev (placeholder k) ≠ some '\\' :=
        prevAfter_ne_bslash prev (placeholder k) hprev
          (by rw [placeholder_getLast]; simp)
      rw [ih hwfs (k + 1) j (prevAfter prev (placeholder k)) hpa]
      rfl
    | inl b =>
      obtain ⟨hbne, hball, hblast⟩ := inlOK_parts b hpOK
      simp only [dGuard]
      rw [List.length_cons]
      simp only [iPassF]
      rw [if_pos ?hyes]
      case hyes =>
        refine ⟨rfl, hprev, ?_⟩
        obtain ⟨c, b', rfl⟩ := List.exists_cons_of_ne_nil hbne
        have hc : c ≠ '$' := by
          simp only [List.all_cons, Bool.and_eq_true] at hball
          simpa using hball.1
        rw [List.cons_append, List.head?_cons]
        simpa using hc
      have hcl : inlineClose '$' (b ++ ('$' :: dGuard k ps)) = some (b, dGuard k ps) := by
        apply inlineClose_through b hball (dGuard k ps)
          (dGuard_head_ne_dollar b k ps hadj hwfs)
        cases hbl : b.getLast? with
        | none =>
          obtain ⟨c, b', rfl⟩ := List.exists_cons_of_ne_nil hbne
          rw [List.getLast?_eq_getLast (c :: b') (by simp)] at hbl
          exact absurd hbl (by simp)
        | some e =>
          intro hcon
          apply hblast
          rw [hbl, hcon]
      simp only [hcl]
      rw [iPassF_fuel _ (dGuard k ps) (some '$') (j + 1) (dGuard k ps).length
        (by simp only [List.length_append, List.length_cons]; omega) (Nat.le_refl _)]
      rw [ih hwfs k (j + 1) (some '$') (by simp)]
      rfl

theorem protect_chars (L : List MPiece) (hwf : wfPieces L = true) :
    protect_existing_math (flatPieces L) =
      (fullGuard 0 (dBlocks L).length L, dBlocks L ++ iBlocks L) := by
  simp only [protect_existing_math]
  rw [dPass_chars L hwf 0 none (by simp)]
  rw [iPass_chars L hwf 0 (dBlocks L).length none (by simp)]

theorem fullGuard_all_ne (L : List MPiece) (hwf : wfPieces L = true) :
    ∀ (k j : Nat), (fullGuard k j L).all (fun c => c != '$') = true := by
  induction L with
  | nil => intro k j; rfl
  | cons p ps ih =>
    intro k j
    have hwfc := hwf
    simp only [wfPieces, Bool.and_eq_true] at hwfc
    obtain ⟨⟨hpOK, -⟩, hwfs⟩ := hwfc
    cases p with
    | txt t =>
      obtain ⟨-, hall, -⟩ := txtOK_parts t hpOK
      simp only [fullGuard, List.all_append, Bool.and_eq_true]
      exact ⟨hall, ih hwfs k j⟩
    | disp b =>
      simp only [fullGuard, List.all_append, Bool.and_eq_true]
      exact ⟨placeholder_all_ne k, ih hwfs (k + 1) j⟩
    | inl b =>
      simp only [fullGuard, List.all_append, Bool.and_eq_true]
      exact ⟨placeholder_all_ne j, ih hwfs k (j + 1)⟩

theorem noUnescaped_of_all (s : Str) (h : s.all (fun c => c != '$') = true) :
    ∀ prev, noUnescapedDollar prev s = true := by
  induction s with
  | nil => intro prev; rfl
  | cons c cs ih =>
    intro prev
    simp only [List.all_cons, Bool.and_eq_true] at h
    simp only [noUnescapedDollar, Bool.and_eq_true, Bool.or_eq_true]
    exact ⟨Or.inl h.1, ih h.2 (some c)⟩

/-- C3 (amended): for a well-formed document — an alternation of nonempty
dollar-free text, display spans and inline spans in which every inline span
is followed by text or the end and no text ends in a backslash — the guarded
text produced by `protect_existing_math` contains no `$` at all, and in
particular no unescaped `$`. -/
theorem C3_protect_no_unescaped_dollar (L : List MPiece) (hwf : wfPieces L = true) :
    (protect_existing_math (flatPieces L)).1.all (fun c => c != '$') = true ∧
    noUnescapedDollar none (protect_existing_math (flatPieces L)).1 = true := by
  rw [protect_chars L hwf]
  refine ⟨fullGuard_all_ne L hwf 0 (dBlocks L).length, ?_⟩
  exact noUnescaped_of_all _ (fullGuard_all_ne L hwf 0 (dBlocks L).length) none

theorem C3_protect_no_unescaped_dollar_witness :
    wfPieces [MPiece.txt "a ".toList, MPiece.disp "x".toList, MPiece.txt " b ".toList, MPiece.inl "y".toList, MPiece.txt " c".toList] = true ∧
    ((protect_existing_math (flatPieces [MPiece.txt "a ".toList, MPiece.disp "x".toList, MPiece.txt " b ".toList, MPiece.inl "y".toList, MPiece.txt " c".toList])).1.all (fun c => c != '$') = true ∧
      noUnescapedDollar none (protect_existing_math (flatPieces [MPiece.txt "a ".toList, MPiece.disp "x".toList, MPiece.txt " b ".toList, MPiece.inl "y".toList, MPiece.txt " c".toList])).1 = true) :=
  ⟨by decide, C3_protect_no_unescaped_dollar [MPiece.txt "a ".toList, MPiece.disp "x".toList, MPiece.txt " b ".toList, MPiece.inl "y".toList, MPiece.txt " c".toList] (by decide)⟩

/-! ## Occurrence toolkit and restore-state segments -/

theorem occursB_of_drop (pat : Str) : ∀ (s : Str) (k : Nat),
    pat.isPrefixOf (s.drop k) = true → occursB pat s = true := by
  intro s
  induction s with
  | nil =>
    intro k h
    rw [List.drop_nil] at h
    rw [List.isPrefixOf_iff_prefix, List.prefix_nil] at h
    subst h
    rfl
  | cons c cs ih =>
    intro k h
    cases k with
    | zero =>
      rw [List.drop_zero] at h
      simp only [occursB, Bool.or_eq_true]
      exact Or.inl h
    | succ k' =>
      simp only [List.drop_succ_cons] at h
      simp only [occursB, Bool.or_eq_true]
      exact Or.inr (ih k' h)

theorem occursB_append_false_left (pat u v : Str)
    (h : occursB pat (u ++ v) = false) : occursB pat u = false := by
  induction u with
  | nil =>
    have hne : pat ≠ [] := by
      intro hnil
      subst hnil
      have : occursB [] (v) = true := by
        cases v with
        | nil => rfl
        | cons a l => simp [occursB, List.isPrefixOf]
      rw [List.nil_append] at h
      rw [h] at this
      exact Bool.false_ne_true this
    simp only [occursB, List.isEmpty_iff]
    simpa using hne
  | cons a u' ih =>
    rw [List.cons_append] at h
    have hc := occursB_cons_false h
    simp only [occursB, Bool.or_eq_false_iff]
    refine ⟨?_, ih hc.2⟩
    have h1 := hc.1
    rw [← Bool.not_eq_true] at h1 ⊢
    intro hcon
    apply h1
    rw [List.isPrefixOf_iff_prefix] at hcon ⊢
    calc pat <+: a :: u' := hcon
      _ <+: (a :: u') ++ v := List.prefix_append _ _
      _ = a :: (u' ++ v) := by simp

theorem occursB_infix_false (pat x m y : Str)
    (h : occursB pat (x ++ m ++ y) = false) : occursB pat m = false :=
  occursB_append_false_left pat m y
    (occursB_append_false_right pat x (m ++ y) (by rwa [← List.append_assoc]))

theorem segsFlat_append (A B : List Seg) :
    segsFlat (A ++ B) = segsFlat A ++ segsFlat B := by
  induction A with
  | nil => rfl
  | cons σ A' ih => simp [segsFlat, ih]

theorem head?_drop' : ∀ (l : Str) (n : Nat), (l.drop n).head? = l.get? n := by
  intro l
  induction l with
  | nil => intro n; cases n <;> rfl
  | cons c cs ih =>
    intro n
    cases n with
    | zero => rfl
    | succ n' => simpa [List.drop_succ_cons] using ih n'

theorem prefix_get? (l1 l2 : Str) (h : l1 <+: l2) (n : Nat) (hn : n < l1.length) :
    l2.get? n = l1.get? n := by
  obtain ⟨t, rfl⟩ := h
  exact List.get?_append hn

theorem prefix_head (c : Char) (r X : Str) (h : (c :: r) <+: X) :
    X.head? = some c := by
  obtain ⟨t, rfl⟩ := h
  rfl

theorem head?_append_left (u v : Str) (hu : u ≠ []) : (u ++ v).head? = u.head? := by
  cases u with
  | nil => exact absurd rfl hu
  | cons c u' => rfl

theorem mem_of_getLast?' (l : Str) (a : Char) (h : l.getLast? = some a) : a ∈ l := by
  cases l with
  | nil => simp at h
  | cons c l' =>
    rw [List.getLast?_eq_getLast (c :: l') (by simp)] at h
    have := List.getLast_mem (l := c :: l') (by simp)
    rwa [(by simpa using h : (c :: l').getLast (by simp) = a)] at this

theorem pm_underscore : ∀ q, q < 15 → pmTok.get? q = some '_' → q = 9 ∨ q = 14 := by
  decide

theorem pm_P : ∀ q, q < 15 → pmTok.get? q = some 'P' → q = 0 := by
  decide

theorem pmTok_length : pmTok.length = 15 := by decide

theorem ph_get_P (x : Nat) (p : Nat) (h : (placeholder x).get? p = some 'P') : p = 2 := by
  rw [placeholder_eq] at h
  match p with
  | 0 => simp at h
  | 1 => simp at h
  | q + 2 =>
    simp only [List.get?_cons_succ] at h
    rcases Nat.lt_or_ge q 15 with hq | hq
    · have h2 : pmTok.get? q = some 'P' := by
        rw [← List.get?_append (by rw [pmTok_length]; exact hq)]
        exact h
      rw [pm_P q hq h2]
    · rw [List.get?_append_right (by rw [pmTok_length]; exact hq)] at h
      have hm := List.get?_mem h
      rw [List.mem_append] at hm
      cases hm with
      | inl hm2 =>
        have := toDec_digit x 'P' hm2
        exact absurd this (by decide)
      | inr hm2 => simp at hm2

theorem pat_ne_nil (d : Char) : pmTok ++ [d] ≠ [] := by simp

theorem pat_length (d : Char) : (pmTok ++ [d]).length = 16 := by
  rw [List.length_append, pmTok_length]
  rfl

theorem pat_no_dollar (d : Char) (hd : 48 ≤ d.toNat ∧ d.toNat ≤ 57) :
    ∀ c ∈ pmTok ++ [d], c ≠ '$' := by
  intro c hc
  rw [List.mem_append] at hc
  cases hc with
  | inl h2 =>
    intro hcon
    subst hcon
    revert h2
    decide
  | inr h2 =>
    simp only [List.mem_singleton] at h2
    subst h2
    intro hcon
    rw [hcon] at hd
    exact absurd hd (by decide)

theorem pat_head (d : Char) : pmTok ++ [d] = 'P' :: ("ROTECTED_MATH_".toList ++ [d]) := rfl

/-- Localization of the extended marker `PROTECTED_MATH_` + digit inside a
well-formed segment string: it can only start two characters into a
placeholder segment. -/
theorem ext_loc (d : Char) (hd : 48 ≤ d.toNat ∧ d.toNat ≤ 57) :
    ∀ (S : List Seg), segsWF S = true →
    ∀ (p : Nat), (pmTok ++ [d]).isPrefixOf ((segsFlat S).drop p) = true →
    ∃ pre x post, S = pre ++ Seg.ph x :: post ∧ p = (segsFlat pre).length + 2 := by
  intro S
  induction S with
  | nil =>
    intro _ p h
    rw [show segsFlat [] = [] from rfl, List.drop_nil] at h
    rw [List.isPrefixOf_iff_prefix, List.prefix_nil] at h
    exact absurd (congrArg List.length h) (by simp)
  | cons σ S' ih =>
    intro hwf p h
    have hwfc := hwf
    simp only [segsWF, Bool.and_eq_true] at hwfc
    obtain ⟨⟨hσOK, hadj⟩, hwfs⟩ := hwfc
    rw [show segsFlat (σ :: S') = segFlat σ ++ segsFlat S' from rfl,
      List.drop_append_eq_append_drop] at h
    rcases le_or_lt (segFlat σ).length p with hp | hp
    · rw [List.drop_eq_nil_of_le hp, List.nil_append] at h
      obtain ⟨pre, x, post, hS, hp2⟩ := ih hwfs (p - (segFlat σ).length) h
      refine ⟨σ :: pre, x, post, by rw [hS]; rfl, ?_⟩
      rw [show segsFlat (σ :: pre) = segFlat σ ++ segsFlat pre from rfl,
        List.length_append]
      omega
    · rw [Nat.sub_eq_zero_of_le (Nat.le_of_lt hp), List.drop_zero] at h
      have hpre := List.isPrefixOf_iff_prefix.mp h
      have hmne : (segFlat σ).drop p ≠ [] := by
        intro hcon
        have := congrArg List.length hcon
        rw [List.length_drop] at this
        simp only [List.length_nil] at this
        omega
      cases σ with
      | txt t =>
        exfalso
        have hocct : occursB pmTok t = false := by
          simpa [segWF, Bool.not_eq_true'] using hσOK
        simp only [segFlat] at hpre hp hmne
        rcases le_or_lt 16 (t.drop p).length with hle | hlt
        · have h2 : (pmTok ++ [d]) <+: t.drop p :=
            prefix_localize hpre (by rw [pat_length]; exact hle)
          have h3 : pmTok <+: t.drop p := (List.prefix_append pmTok [d]).trans h2
          have h4 := occursB_of_drop pmTok t p (List.isPrefixOf_iff_prefix.mpr h3)
          rw [hocct] at h4
          exact Bool.false_ne_true h4
        · obtain ⟨hmp, hrest⟩ := prefix_split hpre (by rw [pat_length]; exact hlt)
          rcases Nat.lt_or_ge (t.drop p).length 15 with hs | hs
          · -- short straddle into the next segment
            cases S' with
            | nil =>
              rw [show segsFlat [] = [] from rfl, List.prefix_nil] at hrest
              have := congrArg List.length hrest
              rw [List.length_drop, pat_length] at this
              simp only [List.length_nil] at this
              omega
            | cons σ2 S'' =>
              have hlen2 : 2 ≤ ((pmTok ++ [d]).drop (t.drop p).length).length := by
                rw [List.length_drop, pat_length]
                omega
              obtain ⟨c1, r1, hc1⟩ : ∃ c1 r1, (pmTok ++ [d]).drop (t.drop p).length = c1 :: r1 := by
                cases hsh : (pmTok ++ [d]).drop (t.drop p).length with
                | nil => rw [hsh] at hlen2; simp at hlen2
                | cons c1 r1 => exact ⟨c1, r1, rfl⟩
              have hc1v : (pmTok ++ [d]).get? (t.drop p).length = some c1 := by
                rw [← head?_drop', hc1]
                rfl
              cases σ2 with
              | txt t2 => simp [segAdj] at hadj
              | dmath b2 =>
                rw [hc1] at hrest
                have hh := prefix_head c1 r1 _ hrest
                rw [show segsFlat (Seg.dmath b2 :: S'') =
                  ('$' :: '$' :: (b2 ++ ['$', '$'])) ++ segsFlat S'' from rfl] at hh
                simp only [List.cons_append, List.head?_cons, Option.some.injEq] at hh
                have hc1mem : c1 ∈ pmTok ++ [d] := List.get?_mem hc1v
                exact pat_no_dollar d hd c1 hc1mem hh.symm
              | imath b2 =>
                rw [hc1] at hrest
                have hh := prefix_head c1 r1 _ hrest
                rw [show segsFlat (Seg.imath b2 :: S'') =
                  ('$' :: (b2 ++ ['$'])) ++ segsFlat S'' from rfl] at hh
                simp only [List.cons_append, List.head?_cons, Option.some.injEq] at hh
                have hc1mem : c1 ∈ pmTok ++ [d] := List.get?_mem hc1v
                exact pat_no_dollar d hd c1 hc1mem hh.symm
              | ph x =>
                obtain ⟨c2, r2, hc2⟩ : ∃ c2 r2, r1 = c2 :: r2 := by
                  cases hsh : r1 with
                  | nil =>
                    rw [hsh] at hc1
                    have := congrArg List.length hc1
                    rw [List.length_drop, pat_length] at this
                    simp only [List.length_cons, List.length_nil] at this
                    omega
                  | cons c2 r2 => exact ⟨c2, r2, rfl⟩
                have hc2v : (pmTok ++ [d]).get? ((t.drop p).length + 1) = some c2 := by
                  rw [← head?_drop', ← List.tail_drop, hc1, hc2]
                  rfl
                rw [hc1, hc2] at hrest
                rw [show segsFlat (Seg.ph x :: S'') = placeholder x ++ segsFlat S'' from rfl,
                  placeholder_eq] at hrest
                simp only [List.cons_append, List.cons_prefix_cons] at hrest
                obtain ⟨hc1u, hc2u, -⟩ := hrest
                have hs1 : (t.drop p).length = 9 ∨ (t.drop p).length = 14 := by
                  apply pm_underscore _ (by omega)
                  rw [← List.get?_append (by rw [pmTok_length]; omega)]
                  rw [hc1v, hc1u]
                cases hs1 with
                | inl h9 =>
                  rw [h9, show (9 : Nat) + 1 = 10 from rfl] at hc2v
                  have h10 : (pmTok ++ [d]).get? 10 = pmTok.get? 10 :=
                    List.get?_append (by rw [pmTok_length]; omega)
                  rw [h10, hc2u] at hc2v
                  exact absurd hc2v (by decide)
                | inr h14 =>
                  rw [h14, show (14 : Nat) + 1 = 15 from rfl] at hc2v
                  have h15 : (pmTok ++ [d]).get? 15 = [d].get? (15 - pmTok.length) :=
                    List.get?_append_right (by rw [pmTok_length])
                  rw [pmTok_length] at h15
                  rw [h15] at hc2v
                  simp only [Nat.sub_self, List.get?_cons_zero, Option.some.injEq] at hc2v
                  rw [← hc2v] at hc2u
                  rw [hc2u] at hd
                  exact absurd hd (by decide)
          · -- the marker itself fits in the text suffix
            have hs15 : (t.drop p).length = 15 := by omega
            have hmeq : t.drop p = (pmTok ++ [d]).take 15 := by
              have := List.prefix_iff_eq_take.mp hmp
              rw [this, hs15]
            rw [List.take_left' pmTok_length] at hmeq
            have h4 := occursB_of_drop pmTok t p
              (by rw [hmeq]; rw [List.isPrefixOf_iff_prefix])
            rw [hocct] at h4
            exact Bool.false_ne_true h4
      | dmath b =>
        exfalso
        have hoccb : occursB pmTok b = false := by
          simpa [segWF, Bool.not_eq_true'] using hσOK
        simp only [segFlat] at hpre hp hmne
        rcases le_or_lt ((('$' :: '$' :: (b ++ ['$', '$'])).drop p).length) 16 with hle | hlt
        · have h2 : ('$' :: '$' :: (b ++ ['$', '$'])).drop p <+: pmTok ++ [d] :=
            List.prefix_of_prefix_length_le (List.prefix_append _ _) hpre
              (by rw [pat_length]; exact hle)
          have hgl : ('$' :: '$' :: (b ++ ['$', '$'])).getLast? = some '$' := by
            rw [show '$' :: '$' :: (b ++ ['$', '$']) = ('$' :: '$' :: b) ++ ['$', '$'] by simp,
              getLast?_append_right _ _ (by simp)]
            rfl
          obtain ⟨u, hu⟩ := List.drop_suffix p ('$' :: '$' :: (b ++ ['$', '$']))
          have hgl2 : (('$' :: '$' :: (b ++ ['$', '$'])).drop p).getLast? = some '$' := by
            rw [← getLast?_append_right u _ hmne, hu, hgl]
          have hdm : '$' ∈ ('$' :: '$' :: (b ++ ['$', '$'])).drop p :=
            mem_of_getLast?' _ _ hgl2
          exact pat_no_dollar d hd '$' (h2.subset hdm) rfl
        · have h2 : (pmTok ++ [d]) <+: ('$' :: '$' :: (b ++ ['$', '$'])).drop p :=
            prefix_localize hpre (by rw [pat_length]; omega)
          match p, hp with
          | 0, _ =>
            rw [List.drop_zero] at h2
            rw [pat_head] at h2
            rw [List.cons_prefix_cons] at h2
            exact absurd h2.1.symm (by decide)
          | 1, _ =>
            rw [show ('$' :: '$' :: (b ++ ['$', '$'])).drop 1 = '$' :: (b ++ ['$', '$']) from rfl] at h2
            rw [pat_head, List.cons_prefix_cons] at h2
            exact absurd h2.1.symm (by decide)
          | (q + 2), hp =>
            rw [show ('$' :: '$' :: (b ++ ['$', '$'])).drop (q + 2) = (b ++ ['$', '$']).drop q from rfl,
              List.drop_append_eq_append_drop] at h2
            rcases le_or_lt 16 (b.drop q).length with hble | hblt
            · have h3 : (pmTok ++ [d]) <+: b.drop q :=
                prefix_localize h2 (by rw [pat_length]; exact hble)
              have h4 : pmTok <+: b.drop q := (List.prefix_append pmTok [d]).trans h3
              have h5 := occursB_of_drop pmTok b q (List.isPrefixOf_iff_prefix.mpr h4)
              rw [hoccb] at h5
              exact Bool.false_ne_true h5
            · obtain ⟨-, hrest⟩ := prefix_split h2 (by rw [pat_length]; exact hblt)
              obtain ⟨c1, r1, hc1⟩ :
                  ∃ c1 r1, (pmTok ++ [d]).drop (b.drop q).length = c1 :: r1 := by
                cases hsh : (pmTok ++ [d]).drop (b.drop q).length with
                | nil =>
                  have := congrArg List.length hsh
                  rw [List.length_drop, pat_length] at this
                  simp only [List.length_nil] at this
                  omega
                | cons c1 r1 => exact ⟨c1, r1, rfl⟩
              have hc1v : (pmTok ++ [d]).get? (b.drop q).length = some c1 := by
                rw [← head?_drop', hc1]
                rfl
              rw [hc1] at hrest
              have hh := prefix_head c1 r1 _ hrest
              rw [head?_drop'] at hh
              have hdol := List.get?_mem hh
              have : c1 = '$' := by
                have h6 : c1 ∈ (['$', '$'] : Str) := hdol
                simpa using h6
              exact pat_no_dollar d hd c1 (List.get?_mem hc1v) this
      | imath b =>
        exfalso
        have hoccb : occursB pmTok b = false := by
          simpa [segWF, Bool.not_eq_true'] using hσOK
        simp only [segFlat] at hpre hp hmne
        rcases le_or_lt ((('$' :: (b ++ ['$'])).drop p).length) 16 with hle | hlt
        · have h2 : ('$' :: (b ++ ['$'])).drop p <+: pmTok ++ [d] :=
            List.prefix_of_prefix_length_le (List.prefix_append _ _) hpre
              (by rw [pat_length]; exact hle)
          have hgl : ('$' :: (b ++ ['$'])).getLast? = some '$' := by
            rw [show '$' :: (b ++ ['$']) = ('$' :: b) ++ ['$'] by simp,
              getLast?_append_right _ _ (by simp)]
            rfl
          obtain ⟨u, hu⟩ := List.drop_suffix p ('$' :: (b ++ ['$']))
          have hgl2 : (('$' :: (b ++ ['$'])).drop p).getLast? = some '$' := by
            rw [← getLast?_append_right u _ hmne, hu, hgl]
          have hdm : '$' ∈ ('$' :: (b ++ ['$'])).drop p :=
            mem_of_getLast?' _ _ hgl2
          exact pat_no_dollar d hd '$' (h2.subset hdm) rfl
        · have h2 : (pmTok ++ [d]) <+: ('$' :: (b ++ ['$'])).drop p :=
            prefix_localize hpre (by rw [pat_length]; omega)
          match p, hp with
          | 0, _ =>
            rw [List.drop_zero] at h2
            rw [pat_head] at h2
            rw [List.cons_prefix_cons] at h2
            exact absurd h2.1.symm (by decide)
          | (q + 1), hp =>
            rw [show ('$' :: (b ++ ['$'])).drop (q + 1) = (b ++ ['$']).drop q from rfl,
              List.drop_append_eq_append_drop] at h2
            rcases le_or_lt 16 (b.drop q).length with hble | hblt
            · have h3 : (pmTok ++ [d]) <+: b.drop q :=
                prefix_localize h2 (by rw [pat_length]; exact hble)
              have h4 : pmTok <+: b.drop q := (List.prefix_append pmTok [d]).trans h3
              have h5 := occursB_of_drop pmTok b q (List.isPrefixOf_iff_prefix.mpr h4)
              rw [hoccb] at h5
              exact Bool.false_ne_true h5
            · obtain ⟨-, hrest⟩ := prefix_split h2 (by rw [pat_length]; exact hblt)
              obtain ⟨c1, r1, hc1⟩ :
                  ∃ c1 r1, (pmTok ++ [d]).drop (b.drop q).length = c1 :: r1 := by
                cases hsh : (pmTok ++ [d]).drop (b.drop q).length with
                | nil =>
                  have := congrArg List.length hsh
                  rw [List.length_drop, pat_length] at this
                  simp only [List.length_nil] at this
                  omega
                | cons c1 r1 => exact ⟨c1, r1, rfl⟩
              have hc1v : (pmTok ++ [d]).get? (b.drop q).length = some c1 := by
                rw [← head?_drop', hc1]
                rfl
              rw [hc1] at hrest
              have hh := prefix_head c1 r1 _ hrest
              rw [head?_drop'] at hh
              have hdol := List.get?_mem hh
              have : c1 = '$' := by
                have h6 : c1 ∈ (['$'] : Str) := hdol
                simpa using h6
              exact pat_no_dollar d hd c1 (List.get?_mem hc1v) this
      | ph x =>
        simp only [segFlat] at hpre hp hmne
        have hh : ((placeholder x).drop p).head? = some 'P' := by
          rw [pat_head] at hpre
          have := prefix_head 'P' _ _ hpre
          rwa [head?_append_left _ _ hmne] at this
        rw [head?_drop'] at hh
        have hp2 := ph_get_P x p hh
        subst hp2
        exact ⟨[], x, S', rfl, by simp [segsFlat]⟩

theorem decTail_cmp (i x : Nat) (R : Str)
    (h : (toDec i ++ ['_', '_']) <+: (toDec x ++ ('_' :: '_' :: R))) : i = x := by
  rcases lt_trichotomy (toDec i).length (toDec x).length with hlt | heq | hgt
  · exfalso
    have hidx := prefix_get? _ _ h (toDec i).length
      (by rw [List.length_append]; have h2 : (['_', '_'] : Str).length = 2 := rfl; omega)
    rw [List.get?_append hlt] at hidx
    rw [List.get?_append_right (Nat.le_refl _)] at hidx
    simp only [Nat.sub_self, List.get?_cons_zero] at hidx
    have hmem := List.get?_mem hidx
    have := toDec_digit x '_' hmem
    exact absurd this (by decide)
  · have h2 : toDec i <+: toDec x ++ ('_' :: '_' :: R) := (List.prefix_append _ _).trans h
    have h3 : toDec i <+: toDec x := prefix_localize h2 (Nat.le_of_eq heq)
    have h4 : toDec i = toDec x := List.IsPrefix.eq_of_length h3 heq
    exact toDec_injective h4
  · exfalso
    have hidx := prefix_get? _ _ h (toDec x).length
      (by rw [List.length_append]; have h2 : (['_', '_'] : Str).length = 2 := rfl; omega)
    rw [List.get?_append_right (Nat.le_refl _)] at hidx
    simp only [Nat.sub_self, List.get?_cons_zero] at hidx
    rw [List.get?_append hgt] at hidx
    have hmem := List.get?_mem hidx.symm
    have := toDec_digit i '_' hmem
    exact absurd this (by decide)

/-- Localization of a whole placeholder in a well-formed segment string:
`__PROTECTED_MATH_i__` can only occur exactly at a `ph i` segment. -/
theorem ph_loc (i : Nat) (S : List Seg) (hwf : segsWF S = true)
    (p : Nat) (h : (placeholder i).isPrefixOf ((segsFlat S).drop p) = true) :
    ∃ pre post, S = pre ++ Seg.ph i :: post ∧ p = (segsFlat pre).length := by
  obtain ⟨d1, ds, hdec⟩ : ∃ d1 ds, toDec i = d1 :: ds :=
    List.exists_cons_of_ne_nil (toDec_ne_nil i)
  have hd1 : 48 ≤ d1.toNat ∧ d1.toNat ≤ 57 :=
    toDec_digit i d1 (by rw [hdec]; exact List.mem_cons_self _ _)
  have hpre := List.isPrefixOf_iff_prefix.mp h
  have hext : (pmTok ++ [d1]) <+: (segsFlat S).drop (p + 2) := by
    obtain ⟨T, hT⟩ := hpre
    rw [placeholder_eq] at hT
    have hX2 : ((segsFlat S).drop p).drop 2 = (pmTok ++ (toDec i ++ ['_', '_'])) ++ T := by
      rw [← hT]
      rfl
    rw [List.drop_drop] at hX2
    rw [hX2]
    refine (?_ : (pmTok ++ [d1]) <+: pmTok ++ (toDec i ++ ['_', '_'])).trans
      (List.prefix_append _ _)
    rw [List.prefix_append_right_inj, hdec]
    exact ⟨ds ++ ['_', '_'], rfl⟩
  obtain ⟨pre, x, post, hS, hp2⟩ := ext_loc d1 hd1 S hwf (p + 2)
    (List.isPrefixOf_iff_prefix.mpr hext)
  have hp3 : p = (segsFlat pre).length := by omega
  have hTail : placeholder i <+: placeholder x ++ segsFlat post := by
    have h2 := hpre
    rw [hS, segsFlat_append, show segsFlat (Seg.ph x :: post) =
      placeholder x ++ segsFlat post from rfl, hp3, List.drop_left] at h2
    exact h2
  have hix : i = x := by
    rw [show placeholder i = phStem ++ (toDec i ++ ['_', '_']) from
      by rw [placeholder, List.append_assoc]] at hTail
    rw [show placeholder x ++ segsFlat post =
      phStem ++ (toDec x ++ ('_' :: '_' :: segsFlat post)) from
      by rw [placeholder, List.append_assoc, List.append_assoc]; rfl] at hTail
    rw [List.prefix_append_right_inj] at hTail
    exact decTail_cmp i x (segsFlat post) hTail
  subst hix
  exact ⟨pre, post, hS, hp3⟩

theorem split_unique {α : Type} (a : α) : ∀ (pre1 post1 pre2 post2 : List α),
    pre1 ++ a :: post1 = pre2 ++ a :: post2 → a ∉ pre1 → a ∉ post1 →
    pre1 = pre2 ∧ post1 = post2 := by
  intro pre1
  induction pre1 with
  | nil =>
    intro post1 pre2 post2 heq h1 h2
    cases pre2 with
    | nil =>
      simp only [List.nil_append, List.cons.injEq] at heq
      exact ⟨rfl, heq.2⟩
    | cons c pre2' =>
      simp only [List.nil_append, List.cons_append, List.cons.injEq] at heq
      exfalso
      apply h2
      rw [heq.2]
      exact List.mem_append_right _ (List.mem_cons_self _ _)
  | cons c pre1' ih =>
    intro post1 pre2 post2 heq h1 h2
    cases pre2 with
    | nil =>
      simp only [List.cons_append, List.nil_append, List.cons.injEq] at heq
      exfalso
      exact h1 (heq.1 ▸ List.mem_cons_self _ _)
    | cons c2 pre2' =>
      simp only [List.cons_append, List.cons.injEq] at heq
      obtain ⟨hc, heq'⟩ := heq
      obtain ⟨h3, h4⟩ := ih post1 pre2' post2 heq'
        (fun hm => h1 (List.mem_cons_of_mem _ hm)) h2
      exact ⟨by rw [hc, h3], h4⟩

theorem occursB_true_exists (pat : Str) : ∀ (s : Str),
    occursB pat s = true → ∃ k, pat.isPrefixOf (s.drop k) = true := by
  intro s
  induction s with
  | nil =>
    intro h
    refine ⟨0, ?_⟩
    simp only [occursB, List.isEmpty_iff] at h
    subst h
    rfl
  | cons c cs ih =>
    intro h
    simp only [occursB, Bool.or_eq_true] at h
    cases h with
    | inl h2 => exact ⟨0, h2⟩
    | inr h2 =>
      obtain ⟨k, hk⟩ := ih h2
      exact ⟨k + 1, by simpa using hk⟩

theorem segsWF_append_right : ∀ (A B : List Seg), segsWF (A ++ B) = true → segsWF B = true := by
  intro A
  induction A with
  | nil => intro B h; exact h
  | cons σ A' ih =>
    intro B h
    simp only [List.cons_append, segsWF, Bool.and_eq_true] at h
    exact ih B h.2

theorem dBlocks_length : ∀ (L : List MPiece), (dBlocks L).length = dispCount L := by
  intro L
  induction L with
  | nil => rfl
  | cons p ps ih =>
    cases p <;> simp [dBlocks, dispCount, ih]

theorem iBlocks_length : ∀ (L : List MPiece), (iBlocks L).length = inlCount L := by
  intro L
  induction L with
  | nil => rfl
  | cons p ps ih =>
    cases p <;> simp [iBlocks, inlCount, ih]

theorem dbody_fresh (b : Str) (h : occursB pmTok ('$' :: '$' :: (b ++ ['$', '$'])) = false) :
    occursB pmTok b = false := by
  apply occursB_infix_false pmTok ['$', '$'] b ['$', '$']
  rwa [show ['$', '$'] ++ b ++ ['$', '$'] = '$' :: '$' :: (b ++ ['$', '$']) by simp]

theorem ibody_fresh (b : Str) (h : occursB pmTok ('$' :: (b ++ ['$'])) = false) :
    occursB pmTok b = false := by
  apply occursB_infix_false pmTok ['$'] b ['$']
  rwa [show ['$'] ++ b ++ ['$'] = '$' :: (b ++ ['$']) by simp]

theorem replaceAllF_walk (pat rep Y : Str) (hne : pat ≠ []) (hY : occursB pat Y = false) :
    ∀ (X : Str) (fuel : Nat), (X ++ (pat ++ Y)).length ≤ fuel →
    (∀ p, p < X.length → pat.isPrefixOf ((X ++ (pat ++ Y)).drop p) = false) →
    replaceAllF pat rep fuel (X ++ (pat ++ Y)) = X ++ (rep ++ Y) := by
  intro X
  induction X with
  | nil =>
    intro fuel hfuel _
    rw [List.nil_append, List.nil_append]
    obtain ⟨c, pr, rfl⟩ := List.exists_cons_of_ne_nil hne
    obtain ⟨f, rfl⟩ : ∃ f, fuel = f + 1 := by
      cases fuel with
      | zero =>
        rw [List.nil_append, List.cons_append] at hfuel
        simp [List.length_cons] at hfuel
      | succ f => exact ⟨f, rfl⟩
    rw [List.cons_append]
    simp only [replaceAllF]
    have hpf : (c :: pr).isPrefixOf (c :: (pr ++ Y)) = true := by
      rw [show c :: (pr ++ Y) = (c :: pr) ++ Y from rfl]
      exact List.isPrefixOf_iff_prefix.mpr (List.prefix_append _ _)
    rw [if_pos ⟨by simp, hpf⟩]
    have hdrop : (c :: (pr ++ Y)).drop (c :: pr).length = Y := by
      rw [show c :: (pr ++ Y) = (c :: pr) ++ Y from rfl, List.drop_left]
    rw [hdrop, replaceAllF_id _ _ f Y hY]
  | cons c X' ih =>
    intro fuel hfuel hX
    obtain ⟨f, rfl⟩ : ∃ f, fuel = f + 1 := by
      cases fuel with
      | zero =>
        rw [List.cons_append] at hfuel
        simp [List.length_cons] at hfuel
      | succ f => exact ⟨f, rfl⟩
    rw [List.cons_append]
    simp only [replaceAllF]
    rw [if_neg ?hnp]
    case hnp =>
      intro hcon
      have h0 := hX 0 (by simp)
      rw [List.drop_zero, List.cons_append] at h0
      rw [hcon.2] at h0
      exact absurd h0 (by decide)
    rw [ih f
      (by rw [List.cons_append, List.length_cons] at hfuel; omega)
      (fun p hp => by
        have h2 := hX (p + 1) (by rw [List.length_cons]; omega)
        rw [List.cons_append, List.drop_succ_cons] at h2
        exact h2)]
    rfl

theorem replaceAll_unique (pat rep X Y : Str) (hne : pat ≠ [])
    (hX : ∀ p, p < X.length → pat.isPrefixOf ((X ++ (pat ++ Y)).drop p) = false)
    (hY : occursB pat Y = false) :
    replaceAll pat rep (X ++ (pat ++ Y)) = X ++ (rep ++ Y) :=
  replaceAllF_walk pat rep Y hne hY X _ (Nat.le_refl _) hX

theorem stepSegs_zero : ∀ (L : List MPiece) (dk ik : Nat),
    segsFlat (stepSegs 0 dk ik L) = fullGuard dk ik L := by
  intro L
  induction L with
  | nil => intro dk ik; rfl
  | cons p ps ih =>
    intro dk ik
    cases p with
    | txt t => simp only [stepSegs, segsFlat, segFlat, fullGuard, ih]
    | disp b =>
      simp only [stepSegs, Nat.not_lt_zero, if_false, segsFlat, segFlat, fullGuard, ih]
    | inl b =>
      simp only [stepSegs, Nat.not_lt_zero, if_false, segsFlat, segFlat, fullGuard, ih]

theorem stepSegs_done : ∀ (L : List MPiece) (i dk ik : Nat),
    dk + dispCount L ≤ i → ik + inlCount L ≤ i →
    segsFlat (stepSegs i dk ik L) = flatPieces L := by
  intro L
  induction L with
  | nil => intro i dk ik _ _; rfl
  | cons p ps ih =>
    intro i dk ik hd hi
    cases p with
    | txt t =>
      simp only [dispCount, inlCount] at hd hi
      simp only [stepSegs, segsFlat, segFlat, flatPieces, pieceFlat]
      rw [ih i dk ik hd hi]
    | disp b =>
      simp only [dispCount, inlCount] at hd hi
      simp only [stepSegs]
      rw [if_pos (by omega)]
      simp only [segsFlat, segFlat, flatPieces, pieceFlat]
      rw [ih i (dk + 1) ik (by omega) hi]
    | inl b =>
      simp only [dispCount, inlCount] at hd hi
      simp only [stepSegs]
      rw [if_pos (by omega)]
      simp only [segsFlat, segFlat, flatPieces, pieceFlat]
      rw [ih i dk (ik + 1) hd (by omega)]

theorem stepSegs_wf : ∀ (L : List MPiece) (i dk ik : Nat),
    wfPieces L = true → occursB pmTok (flatPieces L) = false →
    segsWF (stepSegs i dk ik L) = true := by
  intro L
  induction L with
  | nil => intro i dk ik _ _; rfl
  | cons p ps ih =>
    intro i dk ik hwf hfresh
    have hwfc := hwf
    simp only [wfPieces, Bool.and_eq_true] at hwfc
    obtain ⟨⟨hpOK, hadj⟩, hwfs⟩ := hwfc
    have hfp : occursB pmTok (pieceFlat p) = false :=
      occursB_append_false_left _ _ _ hfresh
    have hfs : occursB pmTok (flatPieces ps) = false :=
      occursB_append_false_right _ _ _ hfresh
    have hrec := ih i
    have hadjS : ∀ (σ : Seg), (∀ t2, σ ≠ Seg.txt t2) →
        ∀ dk2 ik2, segAdj σ (stepSegs i dk2 ik2 ps).head? = true := by
      intro σ hσ dk2 ik2
      cases σ with
      | txt t2 => exact absurd rfl (hσ t2)
      | dmath b2 => cases hh : (stepSegs i dk2 ik2 ps).head? with
        | none => rfl
        | some s2 => cases s2 <;> rfl
      | imath b2 => cases hh : (stepSegs i dk2 ik2 ps).head? with
        | none => rfl
        | some s2 => cases s2 <;> rfl
      | ph x => cases hh : (stepSegs i dk2 ik2 ps).head? with
        | none => rfl
        | some s2 => cases s2 <;> rfl
    cases p with
    | txt t =>
      simp only [stepSegs, segsWF, Bool.and_eq_true]
      refine ⟨⟨?_, ?_⟩, hrec dk ik hwfs hfs⟩
      · simp only [segWF, Bool.not_eq_true']
        exact hfp
      · -- txt: the next mapped segment is txt only if the next piece is txt
        cases ps with
        | nil => rfl
        | cons q ps' =>
          cases q with
          | txt t2 => simp [adjOK] at hadj
          | disp b2 =>
            simp only [stepSegs]
            by_cases hc : dk < i
            · rw [if_pos hc]; rfl
            · rw [if_neg hc]; rfl
          | inl b2 =>
            simp only [stepSegs]
            by_cases hc : ik < i
            · rw [if_pos hc]; rfl
            · rw [if_neg hc]; rfl
    | disp b =>
      simp only [stepSegs, segsWF, Bool.and_eq_true]
      by_cases hc : dk < i
      · rw [if_pos hc]
        refine ⟨⟨?_, hadjS _ (by intro t2 h; cases h) (dk + 1) ik⟩, hrec (dk + 1) ik hwfs hfs⟩
        simp only [segWF, Bool.not_eq_true']
        exact dbody_fresh b hfp
      · rw [if_neg hc]
        exact ⟨⟨rfl, hadjS _ (by intro t2 h; cases h) (dk + 1) ik⟩, hrec (dk + 1) ik hwfs hfs⟩
    | inl b =>
      simp only [stepSegs, segsWF, Bool.and_eq_true]
      by_cases hc : ik < i
      · rw [if_pos hc]
        refine ⟨⟨?_, hadjS _ (by intro t2 h; cases h) dk (ik + 1)⟩, hrec dk (ik + 1) hwfs hfs⟩
        simp only [segWF, Bool.not_eq_true']
        exact ibody_fresh b hfp
      · rw [if_neg hc]
        exact ⟨⟨rfl, hadjS _ (by intro t2 h; cases h) dk (ik + 1)⟩, hrec dk (ik + 1) hwfs hfs⟩

theorem ph_mem_bounds : ∀ (L : List MPiece) (x j dk ik : Nat),
    Seg.ph x ∈ stepSegs j dk ik L →
    (dk ≤ x ∧ x < dk + dispCount L) ∨ (ik ≤ x ∧ x < ik + inlCount L) := by
  intro L
  induction L with
  | nil => intro x j dk ik h; simp [stepSegs] at h
  | cons p ps ih =>
    intro x j dk ik h
    cases p with
    | txt t =>
      simp only [stepSegs, List.mem_cons] at h
      cases h with
      | inl h2 => cases h2
      | inr h2 =>
        rcases ih x j dk ik h2 with h3 | h3
        · left; simp only [dispCount]; omega
        · right; simp only [inlCount]; omega
    | disp b =>
      simp only [stepSegs, List.mem_cons] at h
      cases h with
      | inl h2 =>
        by_cases hc : dk < j
        · rw [if_pos hc] at h2; cases h2
        · rw [if_neg hc] at h2
          injection h2 with h3
          left
          simp only [dispCount]
          omega
      | inr h2 =>
        rcases ih x j (dk + 1) ik h2 with h3 | h3
        · left; simp only [dispCount]; omega
        · right; simp only [inlCount]; omega
    | inl b =>
      simp only [stepSegs, List.mem_cons] at h
      cases h with
      | inl h2 =>
        by_cases hc : ik < j
        · rw [if_pos hc] at h2; cases h2
        · rw [if_neg hc] at h2
          injection h2 with h3
          right
          simp only [inlCount]
          omega
      | inr h2 =>
        rcases ih x j dk (ik + 1) h2 with h3 | h3
        · left; simp only [dispCount]; omega
        · right; simp only [inlCount]; omega

theorem stepSegs_congr : ∀ (L : List MPiece) (i dk ik : Nat),
    i < dk → i < ik → stepSegs i dk ik L = stepSegs (i + 1) dk ik L := by
  intro L
  induction L with
  | nil => intro i dk ik _ _; rfl
  | cons p ps ih =>
    intro i dk ik hd hi
    cases p with
    | txt t => simp only [stepSegs, ih i dk ik hd hi]
    | disp b =>
      simp only [stepSegs, ih i (dk + 1) ik (by omega) hi]
      rw [if_neg (by omega), if_neg (by omega)]
    | inl b =>
      simp only [stepSegs, ih i dk (ik + 1) hd (by omega)]
      rw [if_neg (by omega), if_neg (by omega)]

theorem stepSegs_congr' : ∀ (L : List MPiece) (i dk ik : Nat),
    (i < dk ∨ dk + dispCount L ≤ i) → (i < ik ∨ ik + inlCount L ≤ i) →
    stepSegs i dk ik L = stepSegs (i + 1) dk ik L := by
  intro L
  induction L with
  | nil => intro i dk ik _ _; rfl
  | cons p ps ih =>
    intro i dk ik hd hi
    cases p with
    | txt t =>
      simp only [dispCount] at hd
      simp only [inlCount] at hi
      simp only [stepSegs, ih i dk ik hd hi]
    | disp b =>
      simp only [dispCount] at hd
      simp only [inlCount] at hi
      have hne : dk ≠ i := by omega
      have hsame : (if dk < i then Seg.dmath b else Seg.ph dk) =
          (if dk < i + 1 then Seg.dmath b else Seg.ph dk) := by
        by_cases hc : dk < i
        · rw [if_pos hc, if_pos (by omega)]
        · rw [if_neg hc, if_neg (by omega)]
      simp only [stepSegs, ih i (dk + 1) ik (by omega) hi, hsame]
    | inl b =>
      simp only [dispCount] at hd
      simp only [inlCount] at hi
      have hne : ik ≠ i := by omega
      have hsame : (if ik < i then Seg.imath b else Seg.ph ik) =
          (if ik < i + 1 then Seg.imath b else Seg.ph ik) := by
        by_cases hc : ik < i
        · rw [if_pos hc, if_pos (by omega)]
        · rw [if_neg hc, if_neg (by omega)]
      simp only [stepSegs, ih i dk (ik + 1) hd (by omega), hsame]

theorem stepSegs_decomp : ∀ (L : List MPiece) (i dk ik : Nat),
    dk + dispCount L ≤ ik →
    ((dk ≤ i ∧ i < dk + dispCount L) ∨ (ik ≤ i ∧ i < ik + inlCount L)) →
    ∃ SX SY σ2,
      stepSegs i dk ik L = SX ++ Seg.ph i :: SY ∧
      stepSegs (i + 1) dk ik L = SX ++ σ2 :: SY ∧
      Seg.ph i ∉ SX ∧ Seg.ph i ∉ SY ∧
      ((∃ b, σ2 = Seg.dmath b ∧ dk ≤ i ∧
         (dBlocks L).get? (i - dk) = some ('$' :: '$' :: (b ++ ['$', '$']))) ∨
       (∃ b, σ2 = Seg.imath b ∧ ik ≤ i ∧
         (iBlocks L).get? (i - ik) = some ('$' :: (b ++ ['$'])))) := by
  intro L
  induction L with
  | nil =>
    intro i dk ik _ hin
    simp only [dispCount, inlCount] at hin
    omega
  | cons p ps ih =>
    intro i dk ik hcnt hin
    cases p with
    | txt t =>
      simp only [dispCount] at hcnt hin
      simp only [inlCount] at hin
      obtain ⟨SX, SY, σ2, h1, h2, h3, h4, h5⟩ := ih i dk ik hcnt hin
      refine ⟨Seg.txt t :: SX, SY, σ2, ?_, ?_, ?_, h4, ?_⟩
      · simp only [stepSegs, h1, List.cons_append]
      · simp only [stepSegs, h2, List.cons_append]
      · intro hm
        rcases List.mem_cons.mp hm with h6 | h6
        · cases h6
        · exact h3 h6
      · rcases h5 with ⟨b2, hb2⟩ | ⟨b2, hb2⟩
        · exact Or.inl ⟨b2, hb2⟩
        · exact Or.inr ⟨b2, hb2⟩
    | disp b =>
      simp only [dispCount] at hcnt hin
      simp only [inlCount] at hin
      by_cases hdk : dk = i
      · subst hdk
        have hik : dk < ik := by omega
        refine ⟨[], stepSegs dk (dk + 1) ik ps, Seg.dmath b, ?_, ?_, by simp, ?_, ?_⟩
        · simp only [stepSegs]
          rw [if_neg (Nat.lt_irrefl dk)]
          rfl
        · simp only [stepSegs]
          rw [if_pos (by omega)]
          rw [← stepSegs_congr' ps dk (dk + 1) ik (Or.inl (by omega)) (Or.inl hik)]
          rfl
        · intro hm
          rcases ph_mem_bounds ps dk dk (dk + 1) ik hm with h6 | h6 <;> omega
        · refine Or.inl ⟨b, rfl, Nat.le_refl _, ?_⟩
          rw [Nat.sub_self]
          rfl
      · have hsame : (if dk < i then Seg.dmath b else Seg.ph dk) =
            (if dk < i + 1 then Seg.dmath b else Seg.ph dk) := by
          by_cases hc : dk < i
          · rw [if_pos hc, if_pos (by omega)]
          · rw [if_neg hc, if_neg (by omega)]
        have hin2 : ((dk + 1 ≤ i ∧ i < (dk + 1) + dispCount ps) ∨
            (ik ≤ i ∧ i < ik + inlCount ps)) := by
          rcases hin with h6 | h6
          · left; omega
          · right; exact h6
        obtain ⟨SX, SY, σ2, h1, h2, h3, h4, h5⟩ := ih i (dk + 1) ik (by omega) hin2
        refine ⟨(if dk < i then Seg.dmath b else Seg.ph dk) :: SX, SY, σ2, ?_, ?_, ?_, h4, ?_⟩
        · simp only [stepSegs, h1, List.cons_append]
        · simp only [stepSegs, h2, List.cons_append, hsame]
        · intro hm
          rcases List.mem_cons.mp hm with h6 | h6
          · by_cases hc : dk < i
            · rw [if_pos hc] at h6; cases h6
            · rw [if_neg hc] at h6
              injection h6 with h7
              exact hdk h7.symm
          · exact h3 h6
        · rcases h5 with ⟨b2, hσ, hle, hget⟩ | ⟨b2, hσ, hle, hget⟩
          · refine Or.inl ⟨b2, hσ, by omega, ?_⟩
            rw [show i - dk = (i - (dk + 1)) + 1 by omega,
              show dBlocks (MPiece.disp b :: ps) =
                ('$' :: '$' :: (b ++ ['$', '$'])) :: dBlocks ps from rfl,
              List.get?_cons_succ]
            exact hget
          · exact Or.inr ⟨b2, hσ, hle, hget⟩
    | inl b =>
      simp only [dispCount] at hcnt hin
      simp only [inlCount] at hin
      by_cases hik : ik = i
      · subst hik
        refine ⟨[], stepSegs ik dk (ik + 1) ps, Seg.imath b, ?_, ?_, by simp, ?_, ?_⟩
        · simp only [stepSegs]
          rw [if_neg (Nat.lt_irrefl ik)]
          rfl
        · simp only [stepSegs]
          rw [if_pos (by omega)]
          rw [← stepSegs_congr' ps ik dk (ik + 1) (Or.inr (by omega)) (Or.inl (by omega))]
          rfl
        · intro hm
          rcases ph_mem_bounds ps ik ik dk (ik + 1) hm with h6 | h6 <;> omega
        · refine Or.inr ⟨b, rfl, Nat.le_refl _, ?_⟩
          rw [Nat.sub_self]
          rfl
      · have hsame : (if ik < i then Seg.imath b else Seg.ph ik) =
            (if ik < i + 1 then Seg.imath b else Seg.ph ik) := by
          by_cases hc : ik < i
          · rw [if_pos hc, if_pos (by omega)]
          · rw [if_neg hc, if_neg (by omega)]
        have hin2 : ((dk ≤ i ∧ i < dk + dispCount ps) ∨
            ((ik + 1) ≤ i ∧ i < (ik + 1) + inlCount ps)) := by
          rcases hin with h6 | h6
          · left; exact h6
          · right; omega
        obtain ⟨SX, SY, σ2, h1, h2, h3, h4, h5⟩ := ih i dk (ik + 1) (by omega) hin2
        refine ⟨(if ik < i then Seg.imath b else Seg.ph ik) :: SX, SY, σ2, ?_, ?_, ?_, h4, ?_⟩
        · simp only [stepSegs, h1, List.cons_append]
        · simp only [stepSegs, h2, List.cons_append, hsame]
        · intro hm
          rcases List.mem_cons.mp hm with h6 | h6
          · by_cases hc : ik < i
            · rw [if_pos hc] at h6; cases h6
            · rw [if_neg hc] at h6
              injection h6 with h7
              exact hik h7.symm
          · exact h3 h6
        · rcases h5 with ⟨b2, hσ, hle, hget⟩ | ⟨b2, hσ, hle, hget⟩
          · exact Or.inl ⟨b2, hσ, hle, hget⟩
          · refine Or.inr ⟨b2, hσ, by omega, ?_⟩
            rw [show i - ik = (i - (ik + 1)) + 1 by omega,
              show iBlocks (MPiece.inl b :: ps) =
                ('$' :: (b ++ ['$'])) :: iBlocks ps from rfl,
              List.get?_cons_succ]
            exact hget

theorem drop_eq_cons_of_get? {α : Type} : ∀ (l : List α) (i : Nat) (a : α),
    l.get? i = some a → l.drop i = a :: l.drop (i + 1) := by
  intro l
  induction l with
  | nil => intro i a h; simp at h
  | cons c cs ih =>
    intro i a h
    cases i with
    | zero =>
      simp only [List.get?_cons_zero, Option.some.injEq] at h
      rw [h]
      rfl
    | succ i' =>
      simp only [List.get?_cons_succ] at h
      simp only [List.drop_succ_cons]
      exact ih i' a h

theorem restore_step (L : List MPiece) (hwf : wfPieces L = true)
    (hfresh : occursB pmTok (flatPieces L) = false) (i : Nat)
    (hi : i < dispCount L + inlCount L) :
    ∃ blk, (dBlocks L ++ iBlocks L).get? i = some blk ∧
      replaceAll (placeholder i) blk (segsFlat (stepSegs i 0 (dispCount L) L)) =
        segsFlat (stepSegs (i + 1) 0 (dispCount L) L) := by
  have hin : (0 ≤ i ∧ i < 0 + dispCount L) ∨
      (dispCount L ≤ i ∧ i < dispCount L + inlCount L) := by omega
  obtain ⟨SX, SY, σ2, h1, h2, h3, h4, h5⟩ :=
    stepSegs_decomp L i 0 (dispCount L) (by omega) hin
  have hwfS : segsWF (SX ++ Seg.ph i :: SY) = true := by
    rw [← h1]
    exact stepSegs_wf L i 0 (dispCount L) hwf hfresh
  refine ⟨segFlat σ2, ?_, ?_⟩
  · rcases h5 with ⟨b, hσ, -, hget⟩ | ⟨b, hσ, hle, hget⟩
    · have hget2 : (dBlocks L).get? i = some ('$' :: '$' :: (b ++ ['$', '$'])) := by
        rw [show i - 0 = i from rfl] at hget
        exact hget
      have hlt : i < (dBlocks L).length := by
        by_contra hge
        rw [List.get?_eq_none.mpr (by omega)] at hget2
        cases hget2
      rw [List.get?_append hlt, hget2, hσ]
      rfl
    · rw [List.get?_append_right (by rw [dBlocks_length]; exact hle), dBlocks_length, hget, hσ]
      rfl
  · rw [h1, h2, segsFlat_append, segsFlat_append]
    rw [show segsFlat (Seg.ph i :: SY) = placeholder i ++ segsFlat SY from rfl]
    rw [show segsFlat (σ2 :: SY) = segFlat σ2 ++ segsFlat SY from rfl]
    apply replaceAll_unique
    · rw [placeholder_eq]
      simp
    · intro p hp
      by_contra hocc
      rw [Bool.not_eq_false] at hocc
      have hS : segsFlat SX ++ (placeholder i ++ segsFlat SY) =
          segsFlat (SX ++ Seg.ph i :: SY) := by
        rw [segsFlat_append]
        rfl
      rw [hS] at hocc
      obtain ⟨pre, post, hdec, hpos⟩ := ph_loc i _ hwfS p hocc
      obtain ⟨hpre, -⟩ := split_unique (Seg.ph i) SX SY pre post hdec h3 h4
      rw [← hpre] at hpos
      omega
    · by_contra hocc
      rw [Bool.not_eq_false] at hocc
      obtain ⟨k, hk⟩ := occursB_true_exists _ _ hocc
      have hwfY : segsWF SY = true := by
        apply segsWF_append_right (SX ++ [Seg.ph i])
        rw [List.append_assoc]
        simpa using hwfS
      obtain ⟨pre, post, hdec, -⟩ := ph_loc i SY hwfY k hk
      apply h4
      rw [hdec]
      exact List.mem_append_right _ (List.mem_cons_self _ _)

theorem restore_roundtrip (L : List MPiece) (hwf : wfPieces L = true)
    (hfresh : occursB pmTok (flatPieces L) = false) :
    restoreFrom 0 (dBlocks L ++ iBlocks L) (fullGuard 0 (dBlocks L).length L) =
      flatPieces L := by
  have hlen : (dBlocks L ++ iBlocks L).length = dispCount L + inlCount L := by
    rw [List.length_append, dBlocks_length, iBlocks_length]
  have key : ∀ (m i : Nat), i + m = dispCount L + inlCount L →
      restoreFrom i ((dBlocks L ++ iBlocks L).drop i)
        (segsFlat (stepSegs i 0 (dispCount L) L)) = flatPieces L := by
    intro m
    induction m with
    | zero =>
      intro i hi
      rw [List.drop_eq_nil_of_le (by omega)]
      exact stepSegs_done L i 0 (dispCount L) (by omega) (by omega)
    | succ m' ih =>
      intro i hi
      obtain ⟨blk, hget, hstep⟩ := restore_step L hwf hfresh i (by omega)
      rw [drop_eq_cons_of_get? _ i blk hget]
      simp only [restoreFrom]
      rw [hstep]
      exact ih (i + 1) (by omega)
  have h0 := key (dispCount L + inlCount L) 0 (by omega)
  rw [List.drop_zero, stepSegs_zero] at h0
  rw [dBlocks_length]
  exact h0

/-- C2 (amended): for a well-formed document — an alternation of nonempty
dollar-free text, display spans and inline spans in which every inline span
is followed by text or the end, no text ends in a backslash, and the text
never mentions the placeholder marker `PROTECTED_MATH_` — protecting and
then restoring is the identity: `restore_protected_math` applied to the
output of `protect_existing_math` returns the original text exactly. -/
theorem C2_protect_restore (L : List MPiece) (hwf : wfPieces L = true)
    (hfresh : occursB pmTok (flatPieces L) = false) :
    restore_protected_math (protect_existing_math (flatPieces L)).1
      (protect_existing_math (flatPieces L)).2 = flatPieces L := by
  rw [protect_chars L hwf]
  show restoreFrom 0 (dBlocks L ++ iBlocks L) (fullGuard 0 (dBlocks L).length L) =
    flatPieces L
  exact restore_roundtrip L hwf hfresh

theorem C2_protect_restore_witness :
    wfPieces [MPiece.txt "u ".toList, MPiece.disp "E=mc^2".toList, MPiece.txt " v ".toList, MPiece.inl "w".toList, MPiece.txt " z".toList] = true ∧
    occursB pmTok (flatPieces [MPiece.txt "u ".toList, MPiece.disp "E=mc^2".toList, MPiece.txt " v ".toList, MPiece.inl "w".toList, MPiece.txt " z".toList]) = false ∧
    restore_protected_math (protect_existing_math (flatPieces [MPiece.txt "u ".toList, MPiece.disp "E=mc^2".toList, MPiece.txt " v ".toList, MPiece.inl "w".toList, MPiece.txt " z".toList])).1
      (protect_existing_math (flatPieces [MPiece.txt "u ".toList, MPiece.disp "E=mc^2".toList, MPiece.txt " v ".toList, MPiece.inl "w".toList, MPiece.txt " z".toList])).2 = flatPieces [MPiece.txt "u ".toList, MPiece.disp "E=mc^2".toList, MPiece.txt " v ".toList, MPiece.inl "w".toList, MPiece.txt " z".toList] :=
  ⟨by decide, by decide, C2_protect_restore [MPiece.txt "u ".toList, MPiece.disp "E=mc^2".toList, MPiece.txt " v ".toList, MPiece.inl "w".toList, MPiece.txt " z".toList] (by decide) (by decide)⟩

/-- C1 (the code contradicts the claim): whatever the graphics collaborator
and the remaining total passes do, `parse` raises `TypeError` on every input,
because the box-normalization call passes the keyword argument
`content_processor`, which `BoxConverter.convert` does not accept. -/
theorem C1_parse_raises_type_error :
    (∀ (cleanups tikzStep restPipeline : Str → Str) (latex : Str),
      parseModel cleanups tikzStep restPipeline latex = Except.error PyError.typeError) ∧
    pyKeywordsBind boxConvertParams parseBoxCallKeywords = false := by
  refine ⟨fun cleanups tikzStep restPipeline latex => ?_, by decide⟩
  simp [parseModel, pyKeywordsBind, boxConvertParams, parseBoxCallKeywords]

end TexToMdx

